import Mathlib

/-!
# Cache access pattern visualizer: the simulation engine of `CacheVisualizer.jsx`

A shallow embedding of the cache engine of `src/src/CacheVisualizer.jsx`
(geometry, `getSetAndTag`, `accessMemory`, `generateAccessSequence`,
`runSimulation`, the two size-change handlers) and theorems about it.

Modelling conventions.

* JavaScript numbers that the engine handles are integers; they are `Int`
  (addresses, tags, reported indices) or `Nat` (sizes, counters, timestamps).
  The bitwise operators act on the 32-bit two's-complement pattern of their
  operands, as `ToInt32` / `ToUint32` prescribe.
* `cacheSize / blockSize` and `numBlocks / associativity` are real divisions in
  the source.  They are natural-number divisions here, which is the same value
  exactly when the divisor divides the dividend; that is the case for every
  valid geometry.  `Math.log2` is `mathLog2`, exact on powers of two.
* A `TypeError` (reading a property of `undefined`) is the result `none`.
* A React state variable read inside `accessMemory` is the value captured by
  the closure; it is an explicit argument of the embedded function.
-/

namespace CacheVisualizer

/-! ## JavaScript 32-bit integer operators -/

/-- The abstract operation `ToUint32` on an integral number. -/
def toUint32 (x : Int) : Nat := (x % 4294967296).toNat

/-- The abstract operation `ToInt32` on an integral number. -/
def toInt32 (x : Int) : Int :=
  if x % 4294967296 < 2147483648 then x % 4294967296 else x % 4294967296 - 4294967296

/-- JavaScript `x << n`: the shift count is taken modulo 32, the result wraps to int32. -/
def jsShl (x : Int) (n : Nat) : Int := toInt32 (toInt32 x * 2 ^ (n % 32))

/-- JavaScript `x >> n`: sign-propagating shift of the int32 value of `x`. -/
def jsSar (x : Int) (n : Nat) : Int := toInt32 x / 2 ^ (n % 32)

/-- JavaScript `x & y` on the 32-bit patterns of the operands. -/
def jsAnd (x y : Int) : Int := toInt32 ((toUint32 x &&& toUint32 y : Nat) : Int)

/-- JavaScript `x | y` on the 32-bit patterns of the operands. -/
def jsOr (x y : Int) : Int := toInt32 ((toUint32 x ||| toUint32 y : Nat) : Int)

/-- The loop behind `mathLog2`: halve `n` while it is at least 2, at most `fuel` times. -/
def log2Loop : Nat → Nat → Nat
  | 0, _ => 0
  | fuel + 1, n => if 2 ≤ n then log2Loop fuel (n / 2) + 1 else 0

/-- `Math.log2` on a positive integer, rounded down; exact on the powers of two, the
only arguments a valid geometry gives it. -/
def mathLog2 (n : Nat) : Nat := log2Loop n n

/-- The constant `Number.MAX_SAFE_INTEGER`, that is `2^53 - 1`. -/
def MAX_SAFE_INTEGER : Nat := 9007199254740991

/-! ## Configuration and derived geometry (lines 73-99) -/

/-- The `associativity` field: a number of ways or the string `'fully'`. -/
inductive Associativity where
  | ways (n : Nat)
  | fully
  deriving DecidableEq, Repr

/-- The state variable `cacheConfig`. -/
structure CacheConfig where
  cacheSize : Nat
  blockSize : Nat
  associativity : Associativity
  deriving DecidableEq, Repr

/-- Source: `numBlocks = cacheConfig.cacheSize / cacheConfig.blockSize`. -/
def numBlocks (c : CacheConfig) : Nat := c.cacheSize / c.blockSize

/-- Source: `isFullyAssociative = cacheConfig.associativity === 'fully'`. -/
def isFullyAssociative (c : CacheConfig) : Bool :=
  match c.associativity with
  | .fully => true
  | .ways _ => false

/-- Source: `numSets = isFullyAssociative ? 1 : numBlocks / cacheConfig.associativity`. -/
def numSets (c : CacheConfig) : Nat :=
  match c.associativity with
  | .fully => 1
  | .ways n => numBlocks c / n

/-- Source: `blockOffsetBits = Math.log2(cacheConfig.blockSize)`. -/
def blockOffsetBits (c : CacheConfig) : Nat := mathLog2 c.blockSize

/-- Source: `indexBits = isFullyAssociative ? 0 : Math.log2(numSets)`. -/
def indexBits (c : CacheConfig) : Nat :=
  if isFullyAssociative c then 0 else mathLog2 (numSets c)

/-- Source: `effectiveAssociativity = isFullyAssociative ? numBlocks :
parseInt(cacheConfig.associativity)` (in the effect, `accessMemory` and `runSimulation`). -/
def effectiveAssociativity (c : CacheConfig) : Nat :=
  match c.associativity with
  | .fully => numBlocks c
  | .ways n => n

/-- Source: `effectiveNumSets = isFullyAssociative ? 1 : numSets`. -/
def effectiveNumSets (c : CacheConfig) : Nat :=
  if isFullyAssociative c then 1 else numSets c

/-! ## The store -/

/-- One way of a set: the object `{ valid, tag, lastUsed }`. -/
structure CacheLine where
  valid : Bool
  tag : Int
  lastUsed : Nat
  deriving DecidableEq, Repr

/-- The state variable `cacheState`: an array of sets, each an array of ways. -/
abbrev CacheState := List (List CacheLine)

/-- The state variable `stats`. -/
structure Stats where
  hits : Nat
  misses : Nat
  accesses : Nat
  deriving DecidableEq, Repr

/-- The line `{ valid: false, tag: -1, lastUsed: 0 }` that fills a new store. -/
def emptyLine : CacheLine := { valid := false, tag := -1, lastUsed := 0 }

/-- The store built by the effect (lines 118-124) and by `runSimulation` (lines 269-277):
`Array(effectiveNumSets)` of `Array(effectiveAssociativity)` of invalid lines. -/
def initialCache (c : CacheConfig) : CacheState :=
  List.replicate (effectiveNumSets c) (List.replicate (effectiveAssociativity c) emptyLine)

/-! ## Address decoding (lines 131-145) -/

/-- The object `{ setIndex, tag, blockOffset }` returned by `getSetAndTag`. -/
structure Decoded where
  setIndex : Int
  tag : Int
  blockOffset : Int
  deriving DecidableEq, Repr

/-- Source: `getSetAndTag(address)`. -/
def getSetAndTag (c : CacheConfig) (address : Int) : Decoded :=
  let blockOffset := jsAnd address (jsShl 1 (blockOffsetBits c) - 1)
  if isFullyAssociative c then
    { setIndex := 0
      tag := jsSar address (blockOffsetBits c)
      blockOffset := blockOffset }
  else
    { setIndex := jsAnd (jsSar address (blockOffsetBits c)) (jsShl 1 (indexBits c) - 1)
      tag := jsSar address (blockOffsetBits c + indexBits c)
      blockOffset := blockOffset }

/-! ## One access (lines 147-217) -/

/-- The hit loop (lines 159-169), entered at way `i` with `fuel` iterations left
(`fuel = effectiveAssociativity - i`).  `some (some j)`: the loop broke at way `j`;
`some none`: it ran to the end; `none`: `set[i]` was `undefined`. -/
def hitLoop (set : List CacheLine) (tag : Int) : Nat → Nat → Option (Option Nat)
  | 0, _ => some none
  | fuel + 1, i =>
    match set[i]? with
    | none => none
    | some line =>
      if line.valid && line.tag == tag then some (some i)
      else hitLoop set tag fuel (i + 1)

/-- The empty-slot loop (lines 174-179), entered at way `i` with `fuel` iterations
left.  The result is `wayToReplace` after the loop (`-1` when no way is invalid). -/
def emptyLoop (set : List CacheLine) : Nat → Nat → Option Int
  | 0, _ => some (-1)
  | fuel + 1, i =>
    match set[i]? with
    | none => none
    | some line =>
      if !line.valid then some (i : Int)
      else emptyLoop set fuel (i + 1)

/-- The LRU loop (lines 184-189), entered at way `i` with `fuel` iterations left
and the current values of `lruTime` and `wayToReplace`. -/
def lruLoop (set : List CacheLine) : Nat → Nat → Nat → Int → Option Int
  | 0, _, _, wayToReplace => some wayToReplace
  | fuel + 1, i, lruTime, wayToReplace =>
    match set[i]? with
    | none => none
    | some line =>
      if line.lastUsed < lruTime then lruLoop set fuel (i + 1) line.lastUsed (i : Int)
      else lruLoop set fuel (i + 1) lruTime wayToReplace

/-- The choice of `wayToReplace` on a miss (lines 172-190). -/
def chooseWay (set : List CacheLine) (effAssoc : Nat) : Option Int :=
  match emptyLoop set effAssoc 0 with
  | none => none
  | some w =>
    if w = -1 then lruLoop set effAssoc 0 MAX_SAFE_INTEGER (-1)
    else some w

/-- The assignment `set[way] = line`.  With `way = -1` it adds the property `"-1"`
to the array object and leaves its elements as they are. -/
def writeWay (set : List CacheLine) (way : Int) (line : CacheLine) : List CacheLine :=
  if way < 0 then set else set.set way.toNat line

/-- What one call of `accessMemory` computes: the contents of `newCacheState` after
the call (its set arrays are the ones of the closure's `cacheState`, changed in place),
and the fields of the record appended to `memoryAccesses`. -/
structure AccessOutcome where
  newCacheState : CacheState
  hit : Bool
  setIndex : Int
  wayAccessed : Int
  deriving DecidableEq, Repr

/-- Source: `accessMemory(address)`, as a function of the two state variables its
closure reads, `cacheState` and `stats`. -/
def accessMemory (c : CacheConfig) (cacheState : CacheState) (stats : Stats)
    (address : Int) : Option AccessOutcome :=
  let d := getSetAndTag c address
  let effAssoc := effectiveAssociativity c
  if d.setIndex < 0 then none
  else
    match cacheState[d.setIndex.toNat]? with
    | none => none
    | some set =>
      match hitLoop set d.tag effAssoc 0 with
      | none => none
      | some (some i) =>
        match set[i]? with
        | none => none
        | some line =>
          some { newCacheState :=
                   cacheState.set d.setIndex.toNat
                     (set.set i { line with lastUsed := stats.accesses + 1 })
                 hit := true
                 setIndex := d.setIndex
                 wayAccessed := (i : Int) }
      | some none =>
        match chooseWay set effAssoc with
        | none => none
        | some wayToReplace =>
          some { newCacheState :=
                   cacheState.set d.setIndex.toNat
                     (writeWay set wayToReplace
                       { valid := true, tag := d.tag, lastUsed := stats.accesses + 1 })
                 hit := false
                 setIndex := d.setIndex
                 wayAccessed := wayToReplace }

/-! ## The component state and the setter calls of `accessMemory` -/

/-- One record of `memoryAccesses`: `{ address, hit, setIndex, wayAccessed }`. -/
structure AccessRecord where
  address : Int
  hit : Bool
  setIndex : Int
  wayAccessed : Int
  deriving DecidableEq, Repr

/-- The values of the select `accessPattern`; `other` is the `default` branch. -/
inductive AccessPattern where
  | sequential
  | random
  | strided
  | repeated
  | other
  deriving DecidableEq, Repr

/-- The React state of `CacheVisualizer` (lines 73-84). -/
structure Component where
  cacheConfig : CacheConfig
  accessPattern : AccessPattern
  running : Bool
  stats : Stats
  cacheState : CacheState
  memoryAccesses : List AccessRecord
  currentAddress : Option Int
  deriving DecidableEq, Repr

/-- The setter calls of one `accessMemory(address)` (lines 148, 200-216) applied to the
component state: `setCurrentAddress`, `setCacheState(newCacheState)`, and the two
functional updates `setStats(prev => ...)` and `setMemoryAccesses(prev => ...)`. -/
def commitAccess (comp : Component) (address : Int) (o : AccessOutcome) : Component :=
  { comp with
    currentAddress := some address
    cacheState := o.newCacheState
    stats :=
      { hits := comp.stats.hits + (if o.hit then 1 else 0)
        misses := comp.stats.misses + (if o.hit then 0 else 1)
        accesses := comp.stats.accesses + 1 }
    memoryAccesses :=
      comp.memoryAccesses ++
        [{ address := address, hit := o.hit, setIndex := o.setIndex,
           wayAccessed := o.wayAccessed }] }

/-! ## Address sequences (lines 219-258) -/

/-- The constant `MAX_ADDR`. -/
def MAX_ADDR : Nat := 1024

/-- Source: `generateAccessSequence()`.  `rand k` is the value of the `k`-th evaluation
of `Math.floor(Math.random() * MAX_ADDR)`, a number below `MAX_ADDR`. -/
def generateAccessSequence (c : CacheConfig) (pattern : AccessPattern) (rand : Nat → Nat) :
    List Int :=
  match pattern with
  | .sequential => (List.range 128).map (fun i => ((i * 4 : Nat) : Int))
  | .random => (List.range 100).map (fun i => ((rand i : Nat) : Int))
  | .strided => (List.range 100).map (fun i => (((i * (c.blockSize * 8)) % MAX_ADDR : Nat) : Int))
  | .repeated => (List.range 100).map (fun i => ((rand (i % 8) : Nat) : Int))
  | .other => []

/-! ## A run (lines 260-302) -/

/-- The firings of the interval callback of `runSimulation` (lines 292-301) over the
addresses still to be fed.  Every firing calls the same function `accessMemory`: the one
of the render in which `runSimulation` was called.  That closure reads

* `closureStats`: the `stats` object of that render; no firing changes it, the setter
  `setStats` installs new objects in the component state;
* `closureState`: the `cacheState` array of that render; `[...cacheState]` copies the
  outer array only, so the writes of every firing go to the set arrays this array
  points to, and the next firing finds them there.

When the addresses are used up the callback calls `setRunning(false)`. -/
def intervalTicks (c : CacheConfig) (closureStats : Stats) :
    CacheState → Component → List Int → Option (CacheState × Component)
  | closureState, comp, [] => some (closureState, { comp with running := false })
  | closureState, comp, address :: rest =>
    match accessMemory c closureState closureStats address with
    | none => none
    | some o => intervalTicks c closureStats o.newCacheState (commitAccess comp address o) rest

/-- Source: `runSimulation()` followed by the whole run of its interval, on the state
`comp` of the render whose button was clicked; the result is the component state when
the interval has stopped.  The four setters at lines 269-280 reset the component state;
the closure of `accessMemory` used by the interval holds `comp.cacheState` and
`comp.stats`, the values of the render in which `runSimulation` was called. -/
def runSimulation (comp : Component) (rand : Nat → Nat) : Option Component :=
  if comp.running then some comp
  else
    let reset : Component :=
      { comp with
        cacheState := initialCache comp.cacheConfig
        stats := { hits := 0, misses := 0, accesses := 0 }
        memoryAccesses := []
        currentAddress := none
        running := true }
    let addresses := generateAccessSequence comp.cacheConfig comp.accessPattern rand
    (intervalTicks comp.cacheConfig comp.stats comp.cacheState reset addresses).map Prod.snd

/-- The component state once the effect of lines 110-129 has run for configuration `c`
(after mounting, and after every change of `cacheConfig`): a new all-invalid store,
zeroed statistics, an empty access log. -/
def afterConfigEffect (c : CacheConfig) (pattern : AccessPattern) : Component :=
  { cacheConfig := c
    accessPattern := pattern
    running := false
    stats := { hits := 0, misses := 0, accesses := 0 }
    cacheState := initialCache c
    memoryAccesses := []
    currentAddress := none }

/-! ## The size-change handlers (lines 333-344 and 360-371) -/

/-- JavaScript `x < cacheConfig.associativity` for a number `x`: with `'fully'` the
string converts to `NaN` and the comparison is `false`. -/
def ltAssociativity (x : Nat) (a : Associativity) : Bool :=
  match a with
  | .fully => false
  | .ways n => decide (x < n)

/-- Source: the `onChange` handler of the cache-size select, `value` being
`parseInt(e.target.value)`. -/
def onCacheSizeChange (cfg : CacheConfig) (value : Nat) : CacheConfig :=
  { cfg with
    cacheSize := value
    associativity :=
      if ltAssociativity (value / cfg.blockSize) cfg.associativity then .ways 4
      else cfg.associativity }

/-- Source: the `onChange` handler of the block-size select, `value` being
`parseInt(e.target.value)`. -/
def onBlockSizeChange (cfg : CacheConfig) (value : Nat) : CacheConfig :=
  { cfg with
    blockSize := value
    associativity :=
      if ltAssociativity (cfg.cacheSize / value) cfg.associativity then .ways 4
      else cfg.associativity }

/-! ## Predicates used by the statements -/

/-- The associativity of `c` is `'fully'` or a number that evenly divides `numBlocks`. -/
def AssociativityValid (c : CacheConfig) : Prop :=
  match c.associativity with
  | .fully => True
  | .ways n => n ∣ numBlocks c

instance (c : CacheConfig) : Decidable (AssociativityValid c) := by
  unfold AssociativityValid
  cases c.associativity <;> infer_instance

/-- A valid geometry: both sizes are powers of two, the block is no larger than the
cache, and the associativity is valid. -/
def ValidGeometry (c : CacheConfig) : Prop :=
  2 ^ mathLog2 c.cacheSize = c.cacheSize ∧ 2 ^ mathLog2 c.blockSize = c.blockSize ∧
    c.blockSize ≤ c.cacheSize ∧ AssociativityValid c

instance (c : CacheConfig) : Decidable (ValidGeometry c) := by
  unfold ValidGeometry
  infer_instance

/-- A well-shaped store: `numSets` sets of `effectiveAssociativity` ways each. -/
def WellShaped (c : CacheConfig) (s : CacheState) : Prop :=
  s.length = effectiveNumSets c ∧ ∀ set ∈ s, set.length = effectiveAssociativity c

/-- Every `lastUsed` of the store is below `Number.MAX_SAFE_INTEGER`. -/
def TimestampsSafe (s : CacheState) : Prop :=
  ∀ set ∈ s, ∀ line ∈ set, line.lastUsed < MAX_SAFE_INTEGER

/-- No set holds two valid ways with the same tag. -/
def NoDuplicateTags (s : CacheState) : Prop :=
  ∀ set ∈ s, ∀ i j : Nat, ∀ li lj : CacheLine,
    set[i]? = some li → set[j]? = some lj → li.valid = true → lj.valid = true →
      li.tag = lj.tag → i = j

/-- Every valid line of `s` is still there in `t`: same place, valid, same tag. -/
def KeepsValidLines (s t : CacheState) : Prop :=
  ∀ (si wi : Nat) (set : List CacheLine) (line : CacheLine),
    s[si]? = some set → set[wi]? = some line → line.valid = true →
      ∃ set2 line2, t[si]? = some set2 ∧ set2[wi]? = some line2 ∧
        line2.valid = true ∧ line2.tag = line.tag

/-- The stores that calls of `accessMemory` can build from the all-invalid store. -/
inductive Reachable (c : CacheConfig) : CacheState → Prop where
  | init : Reachable c (initialCache c)
  | step {s : CacheState} (stats : Stats) (address : Int) (o : AccessOutcome) :
      Reachable c s → accessMemory c s stats address = some o → Reachable c o.newCacheState

/-- Successive calls of `accessMemory`, each given as the `stats` value its closure
reads and the address.  The result lists, for each call, the store it found and what
it computed; a call starts from the store the previous one left. -/
def accessTrace (c : CacheConfig) :
    CacheState → List (Stats × Int) → Option (List (CacheState × AccessOutcome))
  | _, [] => some []
  | s, (stats, address) :: rest =>
    match accessMemory c s stats address with
    | none => none
    | some o => (accessTrace c o.newCacheState rest).map (fun t => (s, o) :: t)

/-- The stores a call of `accessMemory` can find in the application: the all-invalid
store, changed by calls of `accessMemory` whose closure reads `stats.accesses <= 128`.
The bound is the one of the application: `stats` is zeroed by the effect and by
`runSimulation`, and a run feeds at most 128 addresses (`generateAccessSequence`). -/
inductive RunStore (c : CacheConfig) : CacheState → Prop where
  | init : RunStore c (initialCache c)
  | step {s : CacheState} (stats : Stats) (address : Int) (o : AccessOutcome) :
      RunStore c s → stats.accesses ≤ 128 → accessMemory c s stats address = some o →
      RunStore c o.newCacheState

/-- The component states the application reaches between runs: the state left by the
effect (after mounting and after every change of `cacheConfig`), a change of the select
`accessPattern`, and a finished run. -/
inductive AppState : Component → Prop where
  | effect (c : CacheConfig) (pattern : AccessPattern) : AppState (afterConfigEffect c pattern)
  | selectPattern {comp : Component} (pattern : AccessPattern) :
      AppState comp → AppState { comp with accessPattern := pattern }
  | run {comp comp2 : Component} (rand : Nat → Nat) :
      AppState comp → runSimulation comp rand = some comp2 → AppState comp2

instance (c : CacheConfig) (s : CacheState) : Decidable (WellShaped c s) := by
  unfold WellShaped
  infer_instance

instance (s : CacheState) : Decidable (TimestampsSafe s) := by
  unfold TimestampsSafe
  infer_instance

/-- The line at way `k` of `set` exists and satisfies `p`. -/
def WayHas (set : List CacheLine) (k : Nat) (p : CacheLine → Prop) : Prop :=
  ∃ l, set[k]? = some l ∧ p l

/-- The line written on a miss (lines 193-197): `{ valid: true, tag, lastUsed:
stats.accesses + 1 }`. -/
def filledLine (c : CacheConfig) (stats : Stats) (a : Int) : CacheLine :=
  { valid := true, tag := (getSetAndTag c a).tag, lastUsed := stats.accesses + 1 }

/-- The address sequence `x, y, x, y, ...` of `N` rounds. -/
def alternating (x y : Int) : Nat → List Int
  | 0 => []
  | n + 1 => x :: y :: alternating x y n

/-- The component state with which the interval of a run starts when the run is started
right after the effect: the state set by the reset of `runSimulation` (lines 269-284). -/
def runStart (c : CacheConfig) (pattern : AccessPattern) : Component :=
  { afterConfigEffect c pattern with running := true }

/-- The invariant of a fully associative store while it fills: one set of
`effectiveAssociativity` ways, the first `k` valid with pairwise distinct tags that are
exactly the members of `T`, the others invalid. -/
def FilledWays (c : CacheConfig) (s : CacheState) (k : Nat) (T : List Int) : Prop :=
  ∃ set, s = [set] ∧ set.length = effectiveAssociativity c ∧
    (∀ i, i < k → WayHas set i (fun l => l.valid = true ∧ l.tag ∈ T)) ∧
    (∀ i, k ≤ i → i < effectiveAssociativity c → WayHas set i (fun l => l.valid = false)) ∧
    (∀ t ∈ T, ∃ i, i < k ∧ WayHas set i (fun l => l.valid = true ∧ l.tag = t)) ∧
    (∀ i j : Nat, ∀ li lj : CacheLine, set[i]? = some li → set[j]? = some lj →
      li.valid = true → lj.valid = true → li.tag = lj.tag → i = j)

/-! ## Concrete configurations and stores -/

/-- The initial value of `cacheConfig` (lines 73-77). -/
def defaultConfig : CacheConfig := { cacheSize := 256, blockSize := 32, associativity := .ways 4 }

/-- 256 bytes, 32-byte blocks, 2 ways: 4 sets, `tag = address >> 7`. -/
def twoWayConfig : CacheConfig := { cacheSize := 256, blockSize := 32, associativity := .ways 2 }

/-- 256 bytes, 32-byte blocks, direct mapped: 8 sets, `tag = address >> 8`. -/
def directMappedConfig : CacheConfig :=
  { cacheSize := 256, blockSize := 32, associativity := .ways 1 }

/-- 256 bytes, 32-byte blocks, fully associative: one set of 8 ways. -/
def fullyConfig : CacheConfig := { cacheSize := 256, blockSize := 32, associativity := .fully }

/-- The statistics `{ hits: 0, misses: 0, accesses: 0 }`. -/
def zeroStats : Stats := { hits := 0, misses := 0, accesses := 0 }

/-- A store for `twoWayConfig` whose set 0 is full, both lines stamped exactly
`Number.MAX_SAFE_INTEGER`. -/
def saturatedStore : CacheState :=
  [[{ valid := true, tag := 5, lastUsed := 9007199254740991 },
    { valid := true, tag := 6, lastUsed := 9007199254740991 }],
   [emptyLine, emptyLine], [emptyLine, emptyLine], [emptyLine, emptyLine]]

/-- A full set of two ways; way 1 is the least recently used. -/
def agedSet : List CacheLine :=
  [{ valid := true, tag := 5, lastUsed := 7 }, { valid := true, tag := 6, lastUsed := 3 }]

/-- A store for `twoWayConfig` whose set 0 is `agedSet`. -/
def agedStore : CacheState :=
  [agedSet, [emptyLine, emptyLine], [emptyLine, emptyLine], [emptyLine, emptyLine]]

/-- What `accessMemory(0)` computes on `agedStore` with `stats.accesses = 9`. -/
def agedOutcome : AccessOutcome :=
  { newCacheState :=
      [[{ valid := true, tag := 5, lastUsed := 7 }, { valid := true, tag := 0, lastUsed := 10 }],
       [emptyLine, emptyLine], [emptyLine, emptyLine], [emptyLine, emptyLine]]
    hit := false
    setIndex := 0
    wayAccessed := 1 }

/-- What `accessMemory(0)` computes on the empty store of `twoWayConfig`. -/
def firstFillOutcome : AccessOutcome :=
  { newCacheState :=
      [[{ valid := true, tag := 0, lastUsed := 1 }, emptyLine],
       [emptyLine, emptyLine], [emptyLine, emptyLine], [emptyLine, emptyLine]]
    hit := false
    setIndex := 0
    wayAccessed := 0 }

/-- Three calls on addresses of three distinct blocks, each reading zeroed statistics. -/
def fillCalls : List (Stats × Int) := [(zeroStats, 0), (zeroStats, 32), (zeroStats, 64)]

/-- The three addresses of `fillCalls` again, in another order. -/
def againCalls : List (Stats × Int) := [(zeroStats, 64), (zeroStats, 0), (zeroStats, 32)]

/-- Draws of the `'random'` pattern that begin `0, 128, 0, 256` (tags A = 0, B = 1,
A, C = 2 of set 0 under `twoWayConfig`) and stay at 256. -/
def abacDraws (k : Nat) : Nat :=
  if k = 0 then 0 else if k = 1 then 128 else if k = 2 then 0 else 256

/-- The component state after a first run of the `'strided'` pattern under the default
configuration, in which a second click on "Run Simulation" is handled. -/
def afterFirstStridedRun : Option Component :=
  runSimulation (afterConfigEffect defaultConfig .strided) (fun _ => 0)

/-! ## Arithmetic of the 32-bit operators -/

theorem log2Loop_two_pow (k : Nat) : ∀ fuel : Nat, k ≤ fuel → log2Loop fuel (2 ^ k) = k := by
  induction k with
  | zero =>
    intro fuel _
    cases fuel <;> simp [log2Loop]
  | succ k ih =>
    intro fuel h
    cases fuel with
    | zero => omega
    | succ fuel =>
      have h2 : 2 ≤ 2 ^ (k + 1) := by
        have := Nat.one_le_two_pow (n := k)
        omega
      have hdiv : 2 ^ (k + 1) / 2 = 2 ^ k := by
        rw [Nat.pow_succ]; simp
      simp [log2Loop, h2, hdiv, ih fuel (by omega)]

theorem mathLog2_two_pow (k : Nat) : mathLog2 (2 ^ k) = k :=
  log2Loop_two_pow k _ (Nat.le_of_lt (Nat.lt_two_pow k))

theorem toUint32_lt (x : Int) : toUint32 x < 4294967296 := by
  unfold toUint32
  have h1 : 0 ≤ x % 4294967296 := Int.emod_nonneg _ (by decide)
  have h2 : x % 4294967296 < 4294967296 := Int.emod_lt_of_pos _ (by decide)
  omega

theorem toUint32_mask (k : Nat) : toUint32 (jsShl 1 k - 1) = 2 ^ (k % 32) - 1 := by
  have h : k % 32 < 32 := Nat.mod_lt _ (by decide)
  unfold jsShl
  generalize k % 32 = q at h
  interval_cases q <;> decide

theorem toInt32_of_lt (n : Nat) (h : n < 2147483648) : toInt32 (n : Int) = (n : Int) := by
  unfold toInt32
  omega

theorem jsAnd_mask (x : Int) (k : Nat) :
    jsAnd x (jsShl 1 k - 1) = ((toUint32 x % 2 ^ (k % 32) : Nat) : Int) := by
  unfold jsAnd
  rw [toUint32_mask, Nat.and_pow_two_sub_one_eq_mod]
  apply toInt32_of_lt
  have h : k % 32 < 32 := Nat.mod_lt _ (by decide)
  have h1 : toUint32 x % 2 ^ (k % 32) < 2 ^ (k % 32) := Nat.mod_lt _ (Nat.two_pow_pos _)
  have h2 : 2 ^ (k % 32) ≤ 2 ^ 31 := Nat.pow_le_pow_right (by decide) (by omega)
  have h3 : (2:Nat) ^ 31 = 2147483648 := by norm_num
  omega

theorem jsAnd_mask_bounds (x : Int) (k : Nat) :
    0 ≤ jsAnd x (jsShl 1 k - 1) ∧ jsAnd x (jsShl 1 k - 1) < ((2 ^ k : Nat) : Int) := by
  rw [jsAnd_mask]
  have h1 : toUint32 x % 2 ^ (k % 32) < 2 ^ (k % 32) := Nat.mod_lt _ (Nat.two_pow_pos _)
  have h2 : 2 ^ (k % 32) ≤ 2 ^ k := Nat.pow_le_pow_right (by decide) (Nat.mod_le _ _)
  constructor
  · exact Int.natCast_nonneg _
  · have : toUint32 x % 2 ^ (k % 32) < 2 ^ k := by omega
    exact_mod_cast this

/-! ## The geometry of a valid configuration -/

theorem effectiveNumSets_eq_numSets (c : CacheConfig) : effectiveNumSets c = numSets c := by
  unfold effectiveNumSets numSets isFullyAssociative
  cases c.associativity <;> simp

theorem validGeometry_shape (c : CacheConfig) (h : ValidGeometry c) :
    effectiveNumSets c = 2 ^ indexBits c ∧ 0 < effectiveAssociativity c := by
  obtain ⟨hs, hb, hle, ha⟩ := h
  have hle2 : 2 ^ mathLog2 c.blockSize ≤ 2 ^ mathLog2 c.cacheSize := by rw [hs, hb]; exact hle
  have hbs : mathLog2 c.blockSize ≤ mathLog2 c.cacheSize :=
    (Nat.pow_le_pow_iff_right (by decide)).mp hle2
  have hnb : numBlocks c = 2 ^ (mathLog2 c.cacheSize - mathLog2 c.blockSize) := by
    unfold numBlocks
    rw [← Nat.pow_div hbs (by decide), hs, hb]
  unfold AssociativityValid at ha
  unfold effectiveNumSets indexBits numSets isFullyAssociative effectiveAssociativity
  cases hassoc : c.associativity with
  | fully =>
    simp [hnb]
  | ways n =>
    rw [hassoc] at ha
    simp only [hnb] at ha ⊢
    obtain ⟨w, hw, rfl⟩ := (Nat.dvd_prime_pow Nat.prime_two).mp ha
    simp only [Bool.false_eq_true, if_false]
    rw [Nat.pow_div hw (by decide), mathLog2_two_pow]
    exact ⟨rfl, Nat.two_pow_pos _⟩

theorem setIndex_bounds (c : CacheConfig) (a : Int) :
    0 ≤ (getSetAndTag c a).setIndex ∧
      (getSetAndTag c a).setIndex < ((2 ^ indexBits c : Nat) : Int) := by
  unfold getSetAndTag
  by_cases hf : isFullyAssociative c = true
  · simp [hf, indexBits]
  · simp only [hf, if_false, Bool.false_eq_true]
    exact jsAnd_mask_bounds _ _

/-! ## C4 -/

theorem toUint32_toInt32_natCast (n : Nat) (h : n < 4294967296) :
    toUint32 (toInt32 (n : Int)) = n := by
  unfold toUint32 toInt32
  split <;> omega

theorem toUint32_natCast (n : Nat) (h : n < 4294967296) : toUint32 (n : Int) = n := by
  unfold toUint32
  omega

theorem toUint32_jsOr (x y : Int) : toUint32 (jsOr x y) = toUint32 x ||| toUint32 y := by
  unfold jsOr
  apply toUint32_toInt32_natCast
  have h : toUint32 x ||| toUint32 y < 2 ^ 32 :=
    Nat.or_lt_two_pow (by have := toUint32_lt x; omega) (by have := toUint32_lt y; omega)
  omega

theorem toUint32_jsShl (x : Int) (n : Nat) :
    toUint32 (jsShl x n) = (toUint32 x * 2 ^ (n % 32)) % 4294967296 := by
  have h : n % 32 < 32 := Nat.mod_lt _ (by decide)
  unfold jsShl
  generalize n % 32 = p at h
  interval_cases p <;> simp only [toUint32, toInt32] <;> norm_num <;> split <;> split <;> omega

theorem sar_shl_bits (a : Int) (n : Nat) :
    (toUint32 (jsSar a n) * 2 ^ (n % 32)) % 4294967296 =
      (toUint32 a / 2 ^ (n % 32)) * 2 ^ (n % 32) := by
  have h : n % 32 < 32 := Nat.mod_lt _ (by decide)
  unfold jsSar
  generalize n % 32 = p at h
  interval_cases p <;> simp only [toUint32, toInt32] <;> norm_num <;> split <;> omega

theorem recombine_bits (U Y p q r : Nat) (hU : U < 2 ^ 32)
    (hK : (Y * 2 ^ p) % 2 ^ 32 = (U / 2 ^ p) * 2 ^ p) (hr : r ≤ p + q) :
    ((U / 2 ^ r) * 2 ^ r ||| ((Y % 2 ^ q) * 2 ^ p) % 2 ^ 32) ||| U % 2 ^ p = U := by
  apply Nat.eq_of_testBit_eq
  intro i
  have hT : ∀ x : Nat, (decide (i ≥ x) && U.testBit (x + (i - x))) =
      (decide (i ≥ x) && U.testBit i) := by
    intro x
    by_cases h : i ≥ x
    · have e : x + (i - x) = i := by omega
      simp [h, e]
    · simp [h]
  have hKi := congrArg (fun n => Nat.testBit n i) hK
  simp only [Nat.testBit_mod_two_pow, Nat.mul_comm _ (2 ^ p), Nat.testBit_mul_pow_two,
    ← Nat.shiftRight_eq_div_pow, Nat.testBit_shiftRight, hT] at hKi
  simp only [Nat.testBit_or, Nat.testBit_mod_two_pow, Nat.mul_comm _ (2 ^ p),
    Nat.mul_comm _ (2 ^ r), Nat.testBit_mul_pow_two, ← Nat.shiftRight_eq_div_pow,
    Nat.testBit_shiftRight, hT]
  have hhigh : 32 ≤ i → U.testBit i = false := by
    intro hi
    apply Nat.testBit_lt_two_pow
    exact Nat.lt_of_lt_of_le hU (Nat.pow_le_pow_right (by decide) hi)
  cases hb : U.testBit i with
  | false =>
    by_cases hi32 : i < 32
    · by_cases hip : i ≥ p
      · simp only [hi32, hip, hb, decide_True, Bool.true_and, Bool.and_false] at hKi
        simp [hKi]
      · simp [hip]
    · simp [hi32]
  | true =>
    have hi32 : i < 32 := by
      by_contra hcon
      have := hhigh (by omega)
      rw [hb] at this
      cases this
    by_cases hip : i ≥ p
    · simp only [hi32, hip, hb, decide_True, Bool.true_and] at hKi
      by_cases hiq : i - p < q
      · simp [hi32, hip, hiq, hKi]
      · have hir : i ≥ r := by omega
        simp [hir]
    · have : i < p := by omega
      simp [this]

theorem decode_reconstructs (c : CacheConfig) (a : Int) :
    toUint32 (jsOr (jsOr (jsShl (getSetAndTag c a).tag (blockOffsetBits c + indexBits c))
        (jsShl (getSetAndTag c a).setIndex (blockOffsetBits c)))
      (getSetAndTag c a).blockOffset) = toUint32 a := by
  have hU : toUint32 a < 2 ^ 32 := Nat.lt_of_lt_of_eq (toUint32_lt a) (by norm_num)
  have hblock : toUint32 (getSetAndTag c a).blockOffset =
      toUint32 a % 2 ^ (blockOffsetBits c % 32) := by
    have : (getSetAndTag c a).blockOffset = jsAnd a (jsShl 1 (blockOffsetBits c) - 1) := by
      by_cases hf : isFullyAssociative c = true <;> simp [getSetAndTag, hf]
    rw [this, jsAnd_mask]
    apply toUint32_natCast
    have := Nat.mod_le (toUint32 a) (2 ^ (blockOffsetBits c % 32))
    omega
  rw [toUint32_jsOr, toUint32_jsOr, hblock, toUint32_jsShl, toUint32_jsShl]
  by_cases hf : isFullyAssociative c = true
  · have hk : indexBits c = 0 := by simp [indexBits, hf]
    have hd : (getSetAndTag c a).tag = jsSar a (blockOffsetBits c) ∧
        (getSetAndTag c a).setIndex = 0 := by
      unfold getSetAndTag; simp [hf]
    rw [hk, hd.1, hd.2, Nat.add_zero, sar_shl_bits]
    have h := recombine_bits (toUint32 a) (toUint32 a / 2 ^ (blockOffsetBits c % 32))
      (blockOffsetBits c % 32) 0 (blockOffsetBits c % 32) hU
      (by
        apply Nat.mod_eq_of_lt
        have := Nat.div_mul_le_self (toUint32 a) (2 ^ (blockOffsetBits c % 32))
        omega)
      (by omega)
    simpa [toUint32, Nat.mod_one] using h
  · have hd : (getSetAndTag c a).tag = jsSar a (blockOffsetBits c + indexBits c) ∧
        (getSetAndTag c a).setIndex =
          jsAnd (jsSar a (blockOffsetBits c)) (jsShl 1 (indexBits c) - 1) := by
      unfold getSetAndTag; simp [hf]
    rw [hd.1, hd.2, sar_shl_bits, jsAnd_mask]
    have hsmall : toUint32 ((toUint32 (jsSar a (blockOffsetBits c)) % 2 ^ (indexBits c % 32) : Nat) :
        Int) = toUint32 (jsSar a (blockOffsetBits c)) % 2 ^ (indexBits c % 32) := by
      apply toUint32_natCast
      have := Nat.mod_le (toUint32 (jsSar a (blockOffsetBits c))) (2 ^ (indexBits c % 32))
      have := toUint32_lt (jsSar a (blockOffsetBits c))
      omega
    rw [hsmall]
    exact recombine_bits (toUint32 a) (toUint32 (jsSar a (blockOffsetBits c)))
      (blockOffsetBits c % 32) (indexBits c % 32) ((blockOffsetBits c + indexBits c) % 32) hU
      (sar_shl_bits a (blockOffsetBits c)) (by omega)

/-- C4 (as amended): for every geometry (the valid ones among them) and every 32-bit
unsigned address `a` (`0 <= a < 2^32`), the value
`(tag << (blockOffsetBits + indexBits)) | (setIndex << blockOffsetBits) | blockOffset`
built from the result of `getSetAndTag(a)` and read as an unsigned integer equals `a`;
the tag is non-negative when `a < 2^31` and negative when `a >= 2^31`, the shift `>>`
being the signed one. -/
theorem decode_roundtrip_and_tag_sign (c : CacheConfig) (a : Int)
    (h0 : 0 ≤ a) (h1 : a < 4294967296) :
    ((toUint32 (jsOr (jsOr (jsShl (getSetAndTag c a).tag (blockOffsetBits c + indexBits c))
        (jsShl (getSetAndTag c a).setIndex (blockOffsetBits c)))
      (getSetAndTag c a).blockOffset) : Nat) : Int) = a ∧
    (a < 2147483648 → 0 ≤ (getSetAndTag c a).tag) ∧
    (2147483648 ≤ a → (getSetAndTag c a).tag < 0) := by
  refine ⟨?_, ?_, ?_⟩
  · rw [decode_reconstructs]
    unfold toUint32
    omega
  · intro h
    have hA : toInt32 a = a := by unfold toInt32; omega
    have ht : ∃ n, (getSetAndTag c a).tag = jsSar a n := by
      by_cases hf : isFullyAssociative c = true
      · exact ⟨blockOffsetBits c, by simp [getSetAndTag, hf]⟩
      · exact ⟨blockOffsetBits c + indexBits c, by simp [getSetAndTag, hf]⟩
    obtain ⟨n, hn⟩ := ht
    rw [hn, jsSar, hA]
    exact Int.ediv_nonneg h0 (by positivity)
  · intro h
    have hA : toInt32 a = a - 4294967296 := by unfold toInt32; omega
    have ht : ∃ n, (getSetAndTag c a).tag = jsSar a n := by
      by_cases hf : isFullyAssociative c = true
      · exact ⟨blockOffsetBits c, by simp [getSetAndTag, hf]⟩
      · exact ⟨blockOffsetBits c + indexBits c, by simp [getSetAndTag, hf]⟩
    obtain ⟨n, hn⟩ := ht
    rw [hn, jsSar, hA]
    exact Int.ediv_neg' (by omega) (by positivity)

/-! ## The three loops of `accessMemory` -/

theorem hitLoop_total (set : List CacheLine) (tag : Int) :
    ∀ fuel i, i + fuel ≤ set.length → ∃ r, hitLoop set tag fuel i = some r := by
  intro fuel
  induction fuel with
  | zero => intro i _; exact ⟨none, rfl⟩
  | succ fuel ih =>
    intro i h
    have hi : i < set.length := by omega
    simp only [hitLoop, List.getElem?_eq_getElem hi]
    split
    · exact ⟨_, rfl⟩
    · exact ih (i + 1) (by omega)

theorem hitLoop_hit (set : List CacheLine) (tag : Int) :
    ∀ fuel i j, hitLoop set tag fuel i = some (some j) →
      i ≤ j ∧ j < i + fuel ∧ WayHas set j (fun l => l.valid = true ∧ l.tag = tag) ∧
      ∀ k, i ≤ k → k < j → WayHas set k (fun l => ¬ (l.valid = true ∧ l.tag = tag)) := by
  intro fuel
  induction fuel with
  | zero => intro i j h; simp [hitLoop] at h
  | succ fuel ih =>
    intro i j h
    simp only [hitLoop] at h
    cases hl : set[i]? with
    | none => simp [hl] at h
    | some line =>
      simp only [hl] at h
      by_cases hm : (line.valid && line.tag == tag) = true
      · simp only [hm, if_true, Option.some.injEq] at h
        subst h
        refine ⟨le_refl _, by omega, ⟨line, hl, by simpa using hm⟩, ?_⟩
        intro k h1 h2; omega
      · simp only [hm, if_false, Bool.false_eq_true] at h
        obtain ⟨h1, h2, h3, h4⟩ := ih (i + 1) j h
        refine ⟨by omega, by omega, h3, ?_⟩
        intro k hk1 hk2
        by_cases hki : k = i
        · subst hki
          exact ⟨line, hl, by simpa using hm⟩
        · exact h4 k (by omega) hk2

theorem hitLoop_miss (set : List CacheLine) (tag : Int) :
    ∀ fuel i, hitLoop set tag fuel i = some none →
      ∀ k, i ≤ k → k < i + fuel → WayHas set k (fun l => ¬ (l.valid = true ∧ l.tag = tag)) := by
  intro fuel
  induction fuel with
  | zero => intro i _ k h1 h2; omega
  | succ fuel ih =>
    intro i h k hk1 hk2
    simp only [hitLoop] at h
    cases hl : set[i]? with
    | none => simp [hl] at h
    | some line =>
      simp only [hl] at h
      by_cases hm : (line.valid && line.tag == tag) = true
      · simp [hm] at h
      · simp only [hm, if_false, Bool.false_eq_true] at h
        by_cases hki : k = i
        · subst hki
          exact ⟨line, hl, by simpa using hm⟩
        · exact ih (i + 1) h k (by omega) (by omega)

theorem emptyLoop_total (set : List CacheLine) :
    ∀ fuel i, i + fuel ≤ set.length → ∃ w, emptyLoop set fuel i = some w := by
  intro fuel
  induction fuel with
  | zero => intro i _; exact ⟨_, rfl⟩
  | succ fuel ih =>
    intro i h
    have hi : i < set.length := by omega
    simp only [emptyLoop, List.getElem?_eq_getElem hi]
    split
    · exact ⟨_, rfl⟩
    · exact ih (i + 1) (by omega)

theorem emptyLoop_spec (set : List CacheLine) :
    ∀ fuel i w, emptyLoop set fuel i = some w →
      (w = -1 ∧ ∀ k, i ≤ k → k < i + fuel → WayHas set k (fun l => l.valid = true)) ∨
      (∃ j : Nat, w = (j : Int) ∧ i ≤ j ∧ j < i + fuel ∧ WayHas set j (fun l => l.valid = false) ∧
        ∀ k, i ≤ k → k < j → WayHas set k (fun l => l.valid = true)) := by
  intro fuel
  induction fuel with
  | zero =>
    intro i w h
    simp only [emptyLoop, Option.some.injEq] at h
    left
    exact ⟨h.symm, by intro k h1 h2; omega⟩
  | succ fuel ih =>
    intro i w h
    simp only [emptyLoop] at h
    cases hl : set[i]? with
    | none => simp [hl] at h
    | some line =>
      simp only [hl] at h
      by_cases hv : line.valid = true
      · simp only [hv, Bool.not_true, Bool.false_eq_true, if_false] at h
        rcases ih (i + 1) w h with ⟨h1, h2⟩ | ⟨j, h1, h2, h3, h4, h5⟩
        · left
          refine ⟨h1, ?_⟩
          intro k hk1 hk2
          by_cases hki : k = i
          · subst hki; exact ⟨line, hl, hv⟩
          · exact h2 k (by omega) (by omega)
        · right
          refine ⟨j, h1, by omega, by omega, h4, ?_⟩
          intro k hk1 hk2
          by_cases hki : k = i
          · subst hki; exact ⟨line, hl, hv⟩
          · exact h5 k (by omega) hk2
      · have hv2 : line.valid = false := by simpa using hv
        simp only [hv2, Bool.not_false, if_true, Option.some.injEq] at h
        right
        refine ⟨i, h.symm, le_refl _, by omega, ⟨line, hl, hv2⟩, ?_⟩
        intro k h1 h2; omega

theorem lruLoop_total (set : List CacheLine) :
    ∀ fuel i t w0, i + fuel ≤ set.length → ∃ w, lruLoop set fuel i t w0 = some w := by
  intro fuel
  induction fuel with
  | zero => intro i t w0 _; exact ⟨_, rfl⟩
  | succ fuel ih =>
    intro i t w0 h
    have hi : i < set.length := by omega
    simp only [lruLoop, List.getElem?_eq_getElem hi]
    split
    · exact ih (i + 1) _ _ (by omega)
    · exact ih (i + 1) _ _ (by omega)

theorem lruLoop_spec (set : List CacheLine) :
    ∀ fuel i t w0 w, lruLoop set fuel i t w0 = some w →
      (w = w0 ∧ ∀ k, i ≤ k → k < i + fuel → WayHas set k (fun l => t ≤ l.lastUsed)) ∨
      (∃ (j : Nat) (l : CacheLine), w = (j : Int) ∧ i ≤ j ∧ j < i + fuel ∧ set[j]? = some l ∧
        l.lastUsed < t ∧
        (∀ k, i ≤ k → k < i + fuel → WayHas set k (fun m => l.lastUsed ≤ m.lastUsed)) ∧
        ∀ k, i ≤ k → k < j → WayHas set k (fun m => l.lastUsed < m.lastUsed)) := by
  intro fuel
  induction fuel with
  | zero =>
    intro i t w0 w h
    simp only [lruLoop, Option.some.injEq] at h
    left
    exact ⟨h.symm, by intro k h1 h2; omega⟩
  | succ fuel ih =>
    intro i t w0 w h
    simp only [lruLoop] at h
    cases hl : set[i]? with
    | none => simp [hl] at h
    | some line =>
      simp only [hl] at h
      by_cases hlt : line.lastUsed < t
      · simp only [hlt, if_true] at h
        rcases ih (i + 1) _ _ w h with ⟨h1, h2⟩ | ⟨j, l, h1, h2, h3, h4, h5, h6, h7⟩
        · right
          refine ⟨i, line, h1, le_refl _, by omega, hl, hlt, ?_, ?_⟩
          · intro k hk1 hk2
            by_cases hki : k = i
            · subst hki; exact ⟨line, hl, le_refl _⟩
            · exact h2 k (by omega) (by omega)
          · intro k hk1 hk2; omega
        · right
          refine ⟨j, l, h1, by omega, by omega, h4, by omega, ?_, ?_⟩
          · intro k hk1 hk2
            by_cases hki : k = i
            · subst hki; exact ⟨line, hl, by omega⟩
            · exact h6 k (by omega) (by omega)
          · intro k hk1 hk2
            by_cases hki : k = i
            · subst hki; exact ⟨line, hl, h5⟩
            · exact h7 k (by omega) hk2
      · simp only [hlt, if_false] at h
        rcases ih (i + 1) _ _ w h with ⟨h1, h2⟩ | ⟨j, l, h1, h2, h3, h4, h5, h6, h7⟩
        · left
          refine ⟨h1, ?_⟩
          intro k hk1 hk2
          by_cases hki : k = i
          · subst hki; exact ⟨line, hl, by omega⟩
          · exact h2 k (by omega) (by omega)
        · right
          refine ⟨j, l, h1, by omega, by omega, h4, h5, ?_, ?_⟩
          · intro k hk1 hk2
            by_cases hki : k = i
            · subst hki; exact ⟨line, hl, by omega⟩
            · exact h6 k (by omega) (by omega)
          · intro k hk1 hk2
            by_cases hki : k = i
            · subst hki; exact ⟨line, hl, by omega⟩
            · exact h7 k (by omega) hk2

/-! ## What one call of `accessMemory` does -/

theorem chooseWay_spec (set : List CacheLine) (n : Nat) (w : Int)
    (h : chooseWay set n = some w) :
    (∃ j : Nat, w = (j : Int) ∧ j < n ∧ WayHas set j (fun l => l.valid = false) ∧
        ∀ k, k < j → WayHas set k (fun l => l.valid = true)) ∨
    ((∀ k, k < n → WayHas set k (fun l => l.valid = true)) ∧
      ((∃ (j : Nat) (l : CacheLine), w = (j : Int) ∧ j < n ∧ set[j]? = some l ∧
          l.lastUsed < MAX_SAFE_INTEGER ∧
          (∀ k, k < n → WayHas set k (fun m => l.lastUsed ≤ m.lastUsed)) ∧
          ∀ k, k < j → WayHas set k (fun m => l.lastUsed < m.lastUsed)) ∨
       (w = -1 ∧ ∀ k, k < n → WayHas set k (fun l => MAX_SAFE_INTEGER ≤ l.lastUsed)))) := by
  unfold chooseWay at h
  cases he : emptyLoop set n 0 with
  | none => simp [he] at h
  | some e =>
    simp only [he] at h
    rcases emptyLoop_spec set n 0 e he with ⟨h1, h2⟩ | ⟨j, h1, _, h3, h4, h5⟩
    · subst h1
      simp only [if_true] at h
      right
      refine ⟨fun k hk => h2 k (Nat.zero_le _) (by omega), ?_⟩
      rcases lruLoop_spec set n 0 _ _ w h with ⟨g1, g2⟩ | ⟨j, l, g1, _, g3, g4, g5, g6, g7⟩
      · right
        exact ⟨g1, fun k hk => g2 k (Nat.zero_le _) (by omega)⟩
      · left
        exact ⟨j, l, g1, by omega, g4, g5, fun k hk => g6 k (Nat.zero_le _) (by omega),
          fun k hk => g7 k (Nat.zero_le _) hk⟩
    · subst h1
      have hne : ¬ ((j : Int) = -1) := by omega
      simp only [hne, if_false, Option.some.injEq] at h
      left
      exact ⟨j, h.symm, by omega, h4, fun k hk => h5 k (Nat.zero_le _) hk⟩

theorem chooseWay_total (set : List CacheLine) (n : Nat) (h : n ≤ set.length) :
    ∃ w, chooseWay set n = some w := by
  unfold chooseWay
  obtain ⟨e, he⟩ := emptyLoop_total set n 0 (by omega)
  simp only [he]
  split
  · exact lruLoop_total set n 0 _ _ (by omega)
  · exact ⟨_, rfl⟩

/-- The outcome of a call that returned, case by case. -/
theorem accessMemory_cases (c : CacheConfig) (s : CacheState) (stats : Stats) (a : Int)
    (o : AccessOutcome) (h : accessMemory c s stats a = some o) :
    ∃ set, s[(getSetAndTag c a).setIndex.toNat]? = some set ∧
      o.setIndex = (getSetAndTag c a).setIndex ∧
      ((∃ (w : Nat) (line : CacheLine), o.hit = true ∧ o.wayAccessed = (w : Int) ∧
          w < effectiveAssociativity c ∧ set[w]? = some line ∧ line.valid = true ∧
          line.tag = (getSetAndTag c a).tag ∧
          (∀ k, k < w →
            WayHas set k (fun l => ¬ (l.valid = true ∧ l.tag = (getSetAndTag c a).tag))) ∧
          o.newCacheState = s.set (getSetAndTag c a).setIndex.toNat
            (set.set w { line with lastUsed := stats.accesses + 1 })) ∨
       (o.hit = false ∧
          (∀ k, k < effectiveAssociativity c →
            WayHas set k (fun l => ¬ (l.valid = true ∧ l.tag = (getSetAndTag c a).tag))) ∧
          chooseWay set (effectiveAssociativity c) = some o.wayAccessed ∧
          o.newCacheState = s.set (getSetAndTag c a).setIndex.toNat
            (writeWay set o.wayAccessed (filledLine c stats a)))) := by
  unfold accessMemory at h
  simp only at h
  split at h
  · simp at h
  · cases hs : s[(getSetAndTag c a).setIndex.toNat]? with
    | none => simp [hs] at h
    | some set =>
      simp only [hs] at h
      refine ⟨set, rfl, ?_⟩
      cases hh : hitLoop set (getSetAndTag c a).tag (effectiveAssociativity c) 0 with
      | none => simp [hh] at h
      | some r =>
        cases r with
        | some i =>
          simp only [hh] at h
          obtain ⟨_, h2, ⟨l, hl, hv, ht⟩, h4⟩ := hitLoop_hit _ _ _ _ _ hh
          simp only [hl, Option.some.injEq] at h
          subst h
          refine ⟨rfl, Or.inl ⟨i, l, rfl, rfl, by omega, hl, hv, ht, ?_, rfl⟩⟩
          intro k hk
          exact h4 k (Nat.zero_le _) hk
        | none =>
          simp only [hh] at h
          have hm := hitLoop_miss _ _ _ _ hh
          cases hc : chooseWay set (effectiveAssociativity c) with
          | none => simp [hc] at h
          | some w =>
            simp only [hc, Option.some.injEq] at h
            subst h
            refine ⟨rfl, Or.inr ⟨rfl, ?_, rfl, rfl⟩⟩
            intro k hk
            exact hm k (Nat.zero_le _) (by omega)

theorem accessMemory_total (c : CacheConfig) (s : CacheState) (stats : Stats) (a : Int)
    (set : List CacheLine) (hs : s[(getSetAndTag c a).setIndex.toNat]? = some set)
    (hlen : effectiveAssociativity c ≤ set.length) :
    ∃ o, accessMemory c s stats a = some o := by
  unfold accessMemory
  have hnn : ¬ ((getSetAndTag c a).setIndex < 0) := by
    have := (setIndex_bounds c a).1
    omega
  simp only [hnn, if_false, hs]
  obtain ⟨r, hr⟩ := hitLoop_total set (getSetAndTag c a).tag (effectiveAssociativity c) 0
    (by omega)
  rw [hr]
  cases r with
  | some i =>
    obtain ⟨_, _, ⟨l, hl, _⟩, _⟩ := hitLoop_hit _ _ _ _ _ hr
    simp only [hl]
    exact ⟨_, rfl⟩
  | none =>
    obtain ⟨w, hw⟩ := chooseWay_total set _ hlen
    simp only [hw]
    exact ⟨_, rfl⟩

/-! ## Stores before and after a write -/

theorem set_getElem?_same {α : Type} (s : List α) (i : Nat) (x : α) (h : s[i]? = some x) :
    s.set i x = s := by
  apply List.ext_getElem?
  intro j
  rw [List.getElem?_set]
  by_cases hij : i = j
  · subst hij
    have hlt : i < s.length := (List.getElem?_eq_some.mp h).1
    simp [hlt, h]
  · simp [hij]

theorem keepsValidLines_set (s : CacheState) (idx : Nat) (set set2 : List CacheLine)
    (hs : s[idx]? = some set)
    (hk : ∀ (wi : Nat) (line : CacheLine), set[wi]? = some line → line.valid = true →
      ∃ line2, set2[wi]? = some line2 ∧ line2.valid = true ∧ line2.tag = line.tag) :
    KeepsValidLines s (s.set idx set2) := by
  intro si wi st line hst hline hv
  have hidx : idx < s.length := (List.getElem?_eq_some.mp hs).1
  by_cases hsi : idx = si
  · subst hsi
    rw [hs] at hst
    cases hst
    obtain ⟨line2, h1, h2, h3⟩ := hk wi line hline hv
    exact ⟨set2, line2, by simp [hidx], h1, h2, h3⟩
  · exact ⟨st, line, by rw [List.getElem?_set_ne hsi]; exact hst, hline, hv, rfl⟩

theorem keepsValidLines_write_invalid (s : CacheState) (idx w : Nat)
    (set : List CacheLine) (new : CacheLine) (hs : s[idx]? = some set)
    (hw : WayHas set w (fun l => l.valid = false)) :
    KeepsValidLines s (s.set idx (set.set w new)) := by
  apply keepsValidLines_set s idx set _ hs
  intro wi line hline hv
  obtain ⟨l, hl, hlv⟩ := hw
  have hne : w ≠ wi := by
    rintro rfl
    rw [hl] at hline
    cases hline
    simp [hlv] at hv
  exact ⟨line, by rw [List.getElem?_set_ne hne]; exact hline, hv, rfl⟩

theorem keepsValidLines_touch (s : CacheState) (idx w : Nat)
    (set : List CacheLine) (line : CacheLine) (t : Nat) (hs : s[idx]? = some set)
    (hw : set[w]? = some line) :
    KeepsValidLines s (s.set idx (set.set w { line with lastUsed := t })) := by
  apply keepsValidLines_set s idx set _ hs
  intro wi l hl hv
  have hwlt : w < set.length := (List.getElem?_eq_some.mp hw).1
  by_cases hne : w = wi
  · subst hne
    rw [hw] at hl
    cases hl
    exact ⟨{ line with lastUsed := t }, by simp [hwlt], hv, rfl⟩
  · exact ⟨l, by rw [List.getElem?_set_ne hne]; exact hl, hv, rfl⟩

/-! ## The way a miss overwrites -/

/-- What a miss overwrites, by the state of the addressed set: the lowest-index invalid
way when there is one; else the lowest-index way of minimum `lastUsed` when a `lastUsed`
is below `Number.MAX_SAFE_INTEGER`; else no way. -/
theorem accessMemory_miss_replaces (c : CacheConfig) (s : CacheState) (stats : Stats)
    (a : Int) (o : AccessOutcome) (set : List CacheLine)
    (h : accessMemory c s stats a = some o) (hmiss : o.hit = false)
    (hset : s[(getSetAndTag c a).setIndex.toNat]? = some set) :
    (∀ k, k < effectiveAssociativity c →
        WayHas set k (fun l => ¬ (l.valid = true ∧ l.tag = (getSetAndTag c a).tag))) ∧
    ((∃ k, k < effectiveAssociativity c ∧ WayHas set k (fun l => l.valid = false)) →
      ∃ w : Nat, o.wayAccessed = (w : Int) ∧ w < effectiveAssociativity c ∧
        WayHas set w (fun l => l.valid = false) ∧
        (∀ k, k < w → WayHas set k (fun l => l.valid = true)) ∧
        o.newCacheState = s.set (getSetAndTag c a).setIndex.toNat
          (set.set w (filledLine c stats a)) ∧
        KeepsValidLines s o.newCacheState) ∧
    ((∀ k, k < effectiveAssociativity c → WayHas set k (fun l => l.valid = true)) →
      (∃ k, k < effectiveAssociativity c ∧
        WayHas set k (fun l => l.lastUsed < MAX_SAFE_INTEGER)) →
      ∃ (w : Nat) (l : CacheLine), o.wayAccessed = (w : Int) ∧ w < effectiveAssociativity c ∧
        set[w]? = some l ∧
        (∀ k, k < effectiveAssociativity c → WayHas set k (fun m => l.lastUsed ≤ m.lastUsed)) ∧
        (∀ k, k < w → WayHas set k (fun m => l.lastUsed < m.lastUsed)) ∧
        o.newCacheState = s.set (getSetAndTag c a).setIndex.toNat
          (set.set w (filledLine c stats a))) ∧
    ((∀ k, k < effectiveAssociativity c →
        WayHas set k (fun l => l.valid = true ∧ MAX_SAFE_INTEGER ≤ l.lastUsed)) →
      o.wayAccessed = -1 ∧ o.newCacheState = s) := by
  obtain ⟨set2, hs2, _, hcase⟩ := accessMemory_cases c s stats a o h
  rw [hset] at hs2
  cases hs2
  rcases hcase with ⟨w, line, hh, _⟩ | ⟨_, hno, hch, hnew⟩
  · rw [hmiss] at hh; cases hh
  · refine ⟨hno, ?_, ?_, ?_⟩
    · rintro ⟨k, hk, l, hl, hlv⟩
      rcases chooseWay_spec _ _ _ hch with ⟨j, h1, h2, h3, h4⟩ | ⟨hall, _⟩
      · have hw : writeWay set o.wayAccessed (filledLine c stats a) =
            set.set j (filledLine c stats a) := by
          rw [h1]; unfold writeWay; simp
        rw [hw] at hnew
        refine ⟨j, h1, h2, h3, h4, hnew, ?_⟩
        rw [hnew]
        exact keepsValidLines_write_invalid s _ j set _ hset h3
      · obtain ⟨l2, hl2, hv2⟩ := hall k hk
        rw [hl] at hl2
        cases hl2
        rw [hlv] at hv2
        cases hv2
    · rintro hall ⟨k, hk, l, hl, hlt⟩
      rcases chooseWay_spec _ _ _ hch with ⟨j, _, h2, ⟨l2, hl2, hv2⟩, _⟩ | ⟨_, hlru⟩
      · obtain ⟨l3, hl3, hv3⟩ := hall j h2
        rw [hl2] at hl3
        cases hl3
        rw [hv2] at hv3
        cases hv3
      · rcases hlru with ⟨j, l2, h1, h2, h3, _, h5, h6⟩ | ⟨_, hmax⟩
        · have hw : writeWay set o.wayAccessed (filledLine c stats a) =
              set.set j (filledLine c stats a) := by
            rw [h1]; unfold writeWay; simp
          rw [hw] at hnew
          exact ⟨j, l2, h1, h2, h3, h5, h6, hnew⟩
        · obtain ⟨l3, hl3, hge⟩ := hmax k hk
          rw [hl] at hl3
          cases hl3
          omega
    · intro hall
      have hn1 : o.wayAccessed = -1 := by
        rcases chooseWay_spec _ _ _ hch with ⟨j, _, h2, ⟨l2, hl2, hv2⟩, _⟩ | ⟨_, hlru⟩
        · obtain ⟨l3, hl3, hv3, _⟩ := hall j h2
          rw [hl2] at hl3
          cases hl3
          rw [hv2] at hv3
          cases hv3
        · rcases hlru with ⟨j, l2, _, h2, h3, h4, _, _⟩ | ⟨h1, _⟩
          · obtain ⟨l3, hl3, _, hge⟩ := hall j h2
            rw [h3] at hl3
            cases hl3
            omega
          · exact h1
      refine ⟨hn1, ?_⟩
      rw [hnew, hn1]
      unfold writeWay
      simp only [show ((-1 : Int) < 0) by decide, if_true]
      exact set_getElem?_same s _ set hset

/-! ## Stores of the application -/

theorem generateAccessSequence_length (c : CacheConfig) (pattern : AccessPattern)
    (rand : Nat → Nat) : (generateAccessSequence c pattern rand).length ≤ 128 := by
  cases pattern <;> simp [generateAccessSequence]

theorem runStore_timestamps (c : CacheConfig) (s : CacheState) (h : RunStore c s) :
    ∀ set ∈ s, ∀ line ∈ set, line.lastUsed ≤ 129 := by
  induction h with
  | init =>
    intro set hset line hline
    rw [initialCache, List.mem_replicate] at hset
    rw [hset.2, List.mem_replicate] at hline
    rw [hline.2]
    decide
  | @step s0 stats address o _ hclock hacc ih =>
    obtain ⟨set, hs, _, hcase⟩ := accessMemory_cases c s0 stats address o hacc
    have hold : ∀ line ∈ set, line.lastUsed ≤ 129 := ih set (List.getElem?_mem hs)
    have key : ∀ set2 : List CacheLine, (∀ line ∈ set2, line.lastUsed ≤ 129) →
        ∀ x ∈ s0.set (getSetAndTag c address).setIndex.toNat set2,
          ∀ line ∈ x, line.lastUsed ≤ 129 := by
      intro set2 h2 x hx
      rcases List.mem_or_eq_of_mem_set hx with hx | hx
      · exact ih x hx
      · rw [hx]; exact h2
    rcases hcase with ⟨w, line, _, _, _, _, _, _, _, hnew⟩ | ⟨_, _, _, hnew⟩
    · rw [hnew]
      apply key
      intro l hl
      rcases List.mem_or_eq_of_mem_set hl with hl | hl
      · exact hold l hl
      · rw [hl]
        show stats.accesses + 1 ≤ 129
        omega
    · rw [hnew]
      apply key
      intro l hl
      unfold writeWay at hl
      split at hl
      · exact hold l hl
      · rcases List.mem_or_eq_of_mem_set hl with hl | hl
        · exact hold l hl
        · rw [hl]
          show stats.accesses + 1 ≤ 129
          omega

theorem intervalTicks_effect (c : CacheConfig) (closureStats : Stats)
    (hclock : closureStats.accesses ≤ 128) :
    ∀ (addresses : List Int) (s : CacheState) (comp : Component) (s2 : CacheState)
      (comp2 : Component),
      intervalTicks c closureStats s comp addresses = some (s2, comp2) → RunStore c s →
      RunStore c s2 ∧ comp2.running = false ∧ comp2.cacheConfig = comp.cacheConfig ∧
        comp2.stats.accesses = comp.stats.accesses + addresses.length ∧
        (comp.cacheState = s → comp2.cacheState = s2) := by
  intro addresses
  induction addresses with
  | nil =>
    intro s comp s2 comp2 h hs
    simp only [intervalTicks, Option.some.injEq, Prod.mk.injEq] at h
    obtain ⟨rfl, rfl⟩ := h
    exact ⟨hs, rfl, rfl, rfl, fun h => h⟩
  | cons a rest ih =>
    intro s comp s2 comp2 h hs
    simp only [intervalTicks] at h
    cases ho : accessMemory c s closureStats a with
    | none => simp [ho] at h
    | some o =>
      simp only [ho] at h
      obtain ⟨h1, h2, h3, h4, h5⟩ := ih _ _ s2 comp2 h (RunStore.step closureStats a o hs hclock ho)
      refine ⟨h1, h2, h3, ?_, fun _ => h5 rfl⟩
      rw [h4]
      simp only [commitAccess, List.length_cons]
      omega

/-- Every state the application reaches between runs is idle, has counted at most 128
accesses, and holds a store of `RunStore`; so does every store a call of `accessMemory`
finds during a run started there (`intervalTicks_effect`). -/
theorem appState_runStore (comp : Component) (h : AppState comp) :
    comp.running = false ∧ comp.stats.accesses ≤ 128 ∧
      RunStore comp.cacheConfig comp.cacheState := by
  induction h with
  | effect c pattern => exact ⟨rfl, by simp [afterConfigEffect], RunStore.init⟩
  | selectPattern pattern _ ih => exact ih
  | @run comp comp2 rand _ hrun ih =>
    obtain ⟨hidle, hclock, hstore⟩ := ih
    unfold runSimulation at hrun
    simp only [hidle, Bool.false_eq_true, if_false, Option.map_eq_some'] at hrun
    obtain ⟨⟨s2, c2⟩, hticks, rfl⟩ := hrun
    obtain ⟨h1, h2, h3, h4, _⟩ :=
      intervalTicks_effect comp.cacheConfig comp.stats hclock _ _ _ s2 c2 hticks hstore
    have hlen := generateAccessSequence_length comp.cacheConfig comp.accessPattern rand
    refine ⟨h2, ?_, ?_⟩
    · rw [h4]
      simp only [Nat.zero_add]
      exact hlen
    · rw [h3]
      cases haddr : generateAccessSequence comp.cacheConfig comp.accessPattern rand with
      | nil =>
        rw [haddr] at hticks
        simp only [intervalTicks, Option.some.injEq, Prod.mk.injEq] at hticks
        rw [← hticks.2]
        exact RunStore.init
      | cons a rest =>
        rw [haddr] at hticks
        simp only [intervalTicks] at hticks
        cases ho : accessMemory comp.cacheConfig comp.cacheState comp.stats a with
        | none => simp [ho] at hticks
        | some o =>
          simp only [ho] at hticks
          obtain ⟨g1, _, _, _, g5⟩ := intervalTicks_effect comp.cacheConfig comp.stats hclock
            _ _ _ s2 c2 hticks (RunStore.step comp.stats a o hstore hclock ho)
          rw [g5 rfl]
          exact g1

/-! ## C1 -/

/-- C1: for every access that misses in `accessMemory` (no valid way of the addressed set
holds the decoded tag) on a store of the application (`RunStore`) whose sets have at least
one way, the way that is overwritten is the lowest-index invalid way of that set if the
set has any invalid way; otherwise it is the lowest-index way among those whose `lastUsed`
is the minimum of the set.  Consequently no valid line is overwritten while the same set
still has an invalid way. -/
theorem miss_overwrites_lowest_invalid_else_lru (c : CacheConfig) (s : CacheState)
    (stats : Stats) (a : Int) (o : AccessOutcome) (set : List CacheLine)
    (hways : 0 < effectiveAssociativity c) (hrun : RunStore c s)
    (h : accessMemory c s stats a = some o) (hmiss : o.hit = false)
    (hset : s[(getSetAndTag c a).setIndex.toNat]? = some set) :
    (∀ k, k < effectiveAssociativity c →
        WayHas set k (fun l => ¬ (l.valid = true ∧ l.tag = (getSetAndTag c a).tag))) ∧
    ((∃ k, k < effectiveAssociativity c ∧ WayHas set k (fun l => l.valid = false)) →
      ∃ w : Nat, o.wayAccessed = (w : Int) ∧ w < effectiveAssociativity c ∧
        WayHas set w (fun l => l.valid = false) ∧
        (∀ k, k < w → WayHas set k (fun l => l.valid = true)) ∧
        o.newCacheState = s.set (getSetAndTag c a).setIndex.toNat
          (set.set w (filledLine c stats a)) ∧
        KeepsValidLines s o.newCacheState) ∧
    ((¬ ∃ k, k < effectiveAssociativity c ∧ WayHas set k (fun l => l.valid = false)) →
      ∃ (w : Nat) (l : CacheLine), o.wayAccessed = (w : Int) ∧ w < effectiveAssociativity c ∧
        set[w]? = some l ∧
        (∀ k, k < effectiveAssociativity c → WayHas set k (fun m => l.lastUsed ≤ m.lastUsed)) ∧
        (∀ k, k < w → WayHas set k (fun m => l.lastUsed < m.lastUsed)) ∧
        o.newCacheState = s.set (getSetAndTag c a).setIndex.toNat
          (set.set w (filledLine c stats a))) := by
  obtain ⟨hno, hinv, hlru, _⟩ := accessMemory_miss_replaces c s stats a o set h hmiss hset
  refine ⟨hno, hinv, ?_⟩
  intro hnone
  have hall : ∀ k, k < effectiveAssociativity c → WayHas set k (fun l => l.valid = true) := by
    intro k hk
    obtain ⟨l, hl, _⟩ := hno k hk
    refine ⟨l, hl, ?_⟩
    cases hv : l.valid with
    | true => exact hv
    | false => exact absurd ⟨k, hk, l, hl, hv⟩ hnone
  apply hlru hall
  obtain ⟨l, hl, _⟩ := hall 0 hways
  refine ⟨0, hways, l, hl, ?_⟩
  have := runStore_timestamps c s hrun set (List.getElem?_mem hset) l (List.getElem?_mem hl)
  show l.lastUsed < 9007199254740991
  omega

/-! ## Well-shaped stores under a valid geometry -/

theorem writeWay_length (set : List CacheLine) (w : Int) (l : CacheLine) :
    (writeWay set w l).length = set.length := by
  unfold writeWay
  split <;> simp

theorem addressed_set_exists (c : CacheConfig) (s : CacheState) (a : Int)
    (hv : ValidGeometry c) (hw : WellShaped c s) :
    ∃ set, s[(getSetAndTag c a).setIndex.toNat]? = some set ∧ set ∈ s ∧
      set.length = effectiveAssociativity c := by
  obtain ⟨h0, h1⟩ := setIndex_bounds c a
  rw [← (validGeometry_shape c hv).1, ← hw.1] at h1
  have hlt : (getSetAndTag c a).setIndex.toNat < s.length := by omega
  refine ⟨s[(getSetAndTag c a).setIndex.toNat], List.getElem?_eq_getElem hlt, ?_, ?_⟩
  · exact List.getElem_mem _
  · exact hw.2 _ (List.getElem_mem _)

theorem accessMemory_newCacheState (c : CacheConfig) (s : CacheState) (stats : Stats) (a : Int)
    (o : AccessOutcome) (h : accessMemory c s stats a = some o) :
    ∃ set set2, s[(getSetAndTag c a).setIndex.toNat]? = some set ∧
      set2.length = set.length ∧
      o.newCacheState = s.set (getSetAndTag c a).setIndex.toNat set2 := by
  obtain ⟨set, hs, _, hcase⟩ := accessMemory_cases c s stats a o h
  rcases hcase with ⟨w, line, _, _, _, _, _, _, _, hnew⟩ | ⟨_, _, _, hnew⟩
  · exact ⟨set, _, hs, by simp, hnew⟩
  · exact ⟨set, _, hs, writeWay_length _ _ _, hnew⟩

theorem wellShaped_step (c : CacheConfig) (s : CacheState) (stats : Stats) (a : Int)
    (o : AccessOutcome) (h : accessMemory c s stats a = some o) (hw : WellShaped c s) :
    WellShaped c o.newCacheState := by
  obtain ⟨set, set2, hs, hlen, hnew⟩ := accessMemory_newCacheState c s stats a o h
  rw [hnew]
  refine ⟨by simp [hw.1], ?_⟩
  intro x hx
  rcases List.mem_or_eq_of_mem_set hx with hx | hx
  · exact hw.2 x hx
  · rw [hx, hlen]
    exact hw.2 set (List.getElem?_mem hs)

/-- A call hits at way `w` when `w` is the first way that is valid with the decoded tag. -/
theorem accessMemory_hit_at (c : CacheConfig) (s : CacheState) (stats : Stats) (a : Int)
    (set : List CacheLine) (w : Nat)
    (hs : s[(getSetAndTag c a).setIndex.toNat]? = some set)
    (hlen : effectiveAssociativity c ≤ set.length) (hw : w < effectiveAssociativity c)
    (hm : WayHas set w (fun l => l.valid = true ∧ l.tag = (getSetAndTag c a).tag))
    (hpre : ∀ k, k < w →
      WayHas set k (fun l => ¬ (l.valid = true ∧ l.tag = (getSetAndTag c a).tag))) :
    ∃ (o : AccessOutcome) (line : CacheLine), accessMemory c s stats a = some o ∧
      o.hit = true ∧ o.wayAccessed = (w : Int) ∧ o.setIndex = (getSetAndTag c a).setIndex ∧
      set[w]? = some line ∧
      o.newCacheState = s.set (getSetAndTag c a).setIndex.toNat
        (set.set w { line with lastUsed := stats.accesses + 1 }) := by
  obtain ⟨o, ho⟩ := accessMemory_total c s stats a set hs hlen
  obtain ⟨set2, hs2, hsi, hcase⟩ := accessMemory_cases c s stats a o ho
  rw [hs] at hs2
  cases hs2
  obtain ⟨lw, hlw, hlwm⟩ := hm
  rcases hcase with ⟨w2, line, hh, hwa, hw2, hl2, hv2, ht2, hpre2, hnew⟩ | ⟨_, hno, _, _⟩
  · have hww : w2 = w := by
      rcases Nat.lt_trichotomy w2 w with hlt | heq | hgt
      · obtain ⟨l, hl, hnm⟩ := hpre w2 hlt
        rw [hl2] at hl
        cases hl
        exact absurd ⟨hv2, ht2⟩ hnm
      · exact heq
      · obtain ⟨l, hl, hnm⟩ := hpre2 w hgt
        rw [hlw] at hl
        cases hl
        exact absurd hlwm hnm
    subst hww
    exact ⟨o, line, ho, hh, hwa, hsi, hl2, hnew⟩
  · obtain ⟨l, hl, hnm⟩ := hno w hw
    rw [hlw] at hl
    cases hl
    exact absurd hlwm hnm

/-- A call misses when no way below `effectiveAssociativity` is valid with the decoded tag. -/
theorem accessMemory_miss_of (c : CacheConfig) (s : CacheState) (stats : Stats) (a : Int)
    (set : List CacheLine)
    (hs : s[(getSetAndTag c a).setIndex.toNat]? = some set)
    (hlen : effectiveAssociativity c ≤ set.length)
    (hno : ∀ k, k < effectiveAssociativity c →
      WayHas set k (fun l => ¬ (l.valid = true ∧ l.tag = (getSetAndTag c a).tag))) :
    ∃ o : AccessOutcome, accessMemory c s stats a = some o ∧ o.hit = false ∧
      o.setIndex = (getSetAndTag c a).setIndex ∧
      chooseWay set (effectiveAssociativity c) = some o.wayAccessed ∧
      o.newCacheState = s.set (getSetAndTag c a).setIndex.toNat
        (writeWay set o.wayAccessed (filledLine c stats a)) := by
  obtain ⟨o, ho⟩ := accessMemory_total c s stats a set hs hlen
  obtain ⟨set2, hs2, hsi, hcase⟩ := accessMemory_cases c s stats a o ho
  rw [hs] at hs2
  cases hs2
  rcases hcase with ⟨w2, line, _, _, hw2, hl2, hv2, ht2, _, _⟩ | ⟨hh, _, hch, hnew⟩
  · obtain ⟨l, hl, hnm⟩ := hno w2 hw2
    rw [hl2] at hl
    cases hl
    exact absurd ⟨hv2, ht2⟩ hnm
  · exact ⟨o, ho, hh, hsi, hch, hnew⟩

/-- With timestamps below the sentinel, a miss in a non-empty set picks a real way. -/
theorem chooseWay_real (set : List CacheLine) (n : Nat) (w : Int) (hn : 0 < n)
    (hsafe : ∀ line ∈ set, line.lastUsed < MAX_SAFE_INTEGER)
    (h : chooseWay set n = some w) : ∃ j : Nat, w = (j : Int) ∧ j < n ∧ j < set.length := by
  rcases chooseWay_spec set n w h with ⟨j, h1, h2, ⟨l, hl, _⟩, _⟩ | ⟨_, hlru⟩
  · exact ⟨j, h1, h2, (List.getElem?_eq_some.mp hl).1⟩
  · rcases hlru with ⟨j, l, h1, h2, h3, _, _, _⟩ | ⟨_, hmax⟩
    · exact ⟨j, h1, h2, (List.getElem?_eq_some.mp h3).1⟩
    · obtain ⟨l, hl, hge⟩ := hmax 0 hn
      have := hsafe l (List.getElem?_mem hl)
      omega

/-! ## C10 -/

/-- C10: for every valid geometry, every store of `numSets` sets with `effectiveWays`
lines each whose `lastUsed` values are all below `Number.MAX_SAFE_INTEGER`, and every
address (those of `[0, 2^31)` among them), `accessMemory` returns (it reads no property
of `undefined`), the decoded `setIndex` lies in `[0, numSets)`, the reported
`wayAccessed` lies in `[0, effectiveWays)` (it is not `-1`), and the store keeps its
numbers of sets and ways. -/
theorem accessMemory_in_bounds (c : CacheConfig) (s : CacheState) (stats : Stats) (a : Int)
    (hv : ValidGeometry c) (hw : WellShaped c s) (ht : TimestampsSafe s) :
    ∃ o, accessMemory c s stats a = some o ∧
      o.setIndex = (getSetAndTag c a).setIndex ∧
      0 ≤ o.setIndex ∧ o.setIndex < (numSets c : Int) ∧
      0 ≤ o.wayAccessed ∧ o.wayAccessed < (effectiveAssociativity c : Int) ∧
      WellShaped c o.newCacheState := by
  obtain ⟨set, hs, hmem, hlen⟩ := addressed_set_exists c s a hv hw
  obtain ⟨o, ho⟩ := accessMemory_total c s stats a set hs (by omega)
  obtain ⟨set2, hs2, hsi, hcase⟩ := accessMemory_cases c s stats a o ho
  rw [hs] at hs2
  cases hs2
  obtain ⟨h0, h1⟩ := setIndex_bounds c a
  rw [← (validGeometry_shape c hv).1, effectiveNumSets_eq_numSets] at h1
  have hway : 0 ≤ o.wayAccessed ∧ o.wayAccessed < (effectiveAssociativity c : Int) := by
    rcases hcase with ⟨w, line, _, hwa, hwn, _⟩ | ⟨_, _, hch, _⟩
    · rw [hwa]
      omega
    · obtain ⟨j, hj, hjn, _⟩ := chooseWay_real set _ _ (validGeometry_shape c hv).2
        (ht set hmem) hch
      rw [hj]
      omega
  exact ⟨o, ho, hsi, by rw [hsi]; exact h0, by rw [hsi]; exact h1, hway.1, hway.2,
    wellShaped_step c s stats a o ho hw⟩

/-! ## C3 -/

/-- C3 (as amended): for every valid geometry, every well-shaped store whose `lastUsed`
values are all below `Number.MAX_SAFE_INTEGER`, and every address `a`, two calls
`accessMemory(a)` in immediate succession both return, the second one is a hit, and it
reports the same `setIndex` and the same `wayAccessed` as the first, whether the first
was a hit or a miss and whatever `stats` values the two calls read. -/
theorem second_access_hits_same_way (c : CacheConfig) (s : CacheState) (stats1 stats2 : Stats)
    (a : Int) (hv : ValidGeometry c) (hw : WellShaped c s) (ht : TimestampsSafe s) :
    ∃ o1 o2, accessMemory c s stats1 a = some o1 ∧
      accessMemory c o1.newCacheState stats2 a = some o2 ∧
      o2.hit = true ∧ o2.setIndex = o1.setIndex ∧ o2.wayAccessed = o1.wayAccessed := by
  obtain ⟨set, hs, hmem, hlen⟩ := addressed_set_exists c s a hv hw
  have hidx : (getSetAndTag c a).setIndex.toNat < s.length := (List.getElem?_eq_some.mp hs).1
  obtain ⟨o1, ho1⟩ := accessMemory_total c s stats1 a set hs (by omega)
  obtain ⟨set2, hs2, hsi, hcase⟩ := accessMemory_cases c s stats1 a o1 ho1
  rw [hs] at hs2
  cases hs2
  rcases hcase with ⟨w, line, _, hwa, hwn, hl, hval, htag, hpre, hnew⟩ | ⟨_, hno, hch, hnew⟩
  · have hwl : w < set.length := by omega
    obtain ⟨o2, _, ho2, hh2, hwa2, hsi2, _, _⟩ :=
      accessMemory_hit_at c o1.newCacheState stats2 a
        (set.set w { line with lastUsed := stats1.accesses + 1 }) w
        (by rw [hnew]; simp [hidx]) (by simp; omega) hwn
        ⟨{ line with lastUsed := stats1.accesses + 1 }, by simp [hwl], hval, htag⟩
        (by
          intro k hk
          have hne : w ≠ k := by omega
          obtain ⟨l, hl, hnm⟩ := hpre k hk
          exact ⟨l, by rw [List.getElem?_set_ne hne]; exact hl, hnm⟩)
    exact ⟨o1, o2, ho1, ho2, hh2, by rw [hsi2, hsi], by rw [hwa2, hwa]⟩
  · obtain ⟨j, hj, hjn, hjl⟩ := chooseWay_real set _ _ (validGeometry_shape c hv).2
      (ht set hmem) hch
    have hwr : writeWay set o1.wayAccessed (filledLine c stats1 a) =
        set.set j (filledLine c stats1 a) := by
      rw [hj]; unfold writeWay; simp
    rw [hwr] at hnew
    obtain ⟨o2, _, ho2, hh2, hwa2, hsi2, _, _⟩ :=
      accessMemory_hit_at c o1.newCacheState stats2 a
        (set.set j (filledLine c stats1 a)) j
        (by rw [hnew]; simp [hidx]) (by simp; omega) hjn
        ⟨filledLine c stats1 a, by simp [hjl], rfl, rfl⟩
        (by
          intro k hk
          have hne : j ≠ k := by omega
          obtain ⟨l, hl, hnm⟩ := hno k (by omega)
          exact ⟨l, by rw [List.getElem?_set_ne hne]; exact hl, hnm⟩)
    exact ⟨o1, o2, ho1, ho2, hh2, by rw [hsi2, hsi], by rw [hwa2, hj]⟩

/-! ## C5 -/

theorem noDuplicateTags_step (c : CacheConfig) (s : CacheState) (stats : Stats) (a : Int)
    (o : AccessOutcome) (h : accessMemory c s stats a = some o)
    (hlen : ∀ set ∈ s, set.length = effectiveAssociativity c) (hnd : NoDuplicateTags s) :
    NoDuplicateTags o.newCacheState := by
  obtain ⟨set, hs, _, hcase⟩ := accessMemory_cases c s stats a o h
  have hmem : set ∈ s := List.getElem?_mem hs
  have hsetlen := hlen set hmem
  have key : ∀ set2 : List CacheLine,
      (∀ i j : Nat, ∀ li lj : CacheLine, set2[i]? = some li → set2[j]? = some lj →
        li.valid = true → lj.valid = true → li.tag = lj.tag → i = j) →
      NoDuplicateTags (s.set (getSetAndTag c a).setIndex.toNat set2) := by
    intro set2 h2 x hx
    rcases List.mem_or_eq_of_mem_set hx with hx | hx
    · exact hnd x hx
    · rw [hx]; exact h2
  rcases hcase with ⟨w, line, _, _, _, hl, _, _, _, hnew⟩ | ⟨_, hno, _, hnew⟩
  · rw [hnew]
    apply key
    have back : ∀ (i : Nat) (li : CacheLine),
        (set.set w { line with lastUsed := stats.accesses + 1 })[i]? = some li →
        ∃ l0, set[i]? = some l0 ∧ l0.valid = li.valid ∧ l0.tag = li.tag := by
      intro i li hi
      rw [List.getElem?_set] at hi
      by_cases hwi : w = i
      · subst hwi
        simp only [if_true] at hi
        split at hi
        · cases hi
          exact ⟨line, hl, rfl, rfl⟩
        · cases hi
      · simp only [hwi, if_false] at hi
        exact ⟨li, hi, rfl, rfl⟩
    intro i j li lj hi hj hvi hvj htag
    obtain ⟨l0, h0, hv0, ht0⟩ := back i li hi
    obtain ⟨l1, h1, hv1, ht1⟩ := back j lj hj
    exact hnd set hmem i j l0 l1 h0 h1 (by rw [hv0]; exact hvi) (by rw [hv1]; exact hvj)
      (by rw [ht0, ht1]; exact htag)
  · rw [hnew]
    apply key
    unfold writeWay
    split
    · exact hnd set hmem
    · intro i j li lj hi hj hvi hvj htag
      have clash : ∀ (k : Nat) (lk : CacheLine), o.wayAccessed.toNat ≠ k →
          (set.set o.wayAccessed.toNat (filledLine c stats a))[k]? = some lk →
          lk.valid = true → lk.tag = (getSetAndTag c a).tag → False := by
        intro k lk hne hk hvk htk
        rw [List.getElem?_set_ne hne] at hk
        have hklt : k < set.length := (List.getElem?_eq_some.mp hk).1
        obtain ⟨l, hl, hnm⟩ := hno k (by omega)
        rw [hk] at hl
        cases hl
        exact hnm ⟨hvk, htk⟩
      have filled : ∀ (lk : CacheLine),
          (set.set o.wayAccessed.toNat (filledLine c stats a))[o.wayAccessed.toNat]? = some lk →
          lk.tag = (getSetAndTag c a).tag := by
        intro lk hk
        rw [List.getElem?_set] at hk
        simp only [if_true] at hk
        split at hk
        · cases hk; rfl
        · cases hk
      by_cases hwi : o.wayAccessed.toNat = i
      · by_cases hwj : o.wayAccessed.toNat = j
        · omega
        · subst hwi
          exact (clash j lj hwj hj hvj (by rw [← htag]; exact filled li hi)).elim
      · by_cases hwj : o.wayAccessed.toNat = j
        · subst hwj
          exact (clash i li hwi hi hvi (by rw [htag]; exact filled lj hj)).elim
        · rw [List.getElem?_set_ne hwi] at hi
          rw [List.getElem?_set_ne hwj] at hj
          exact hnd set hmem i j li lj hi hj hvi hvj htag

theorem reachable_invariant (c : CacheConfig) (s : CacheState) (h : Reachable c s) :
    (∀ set ∈ s, set.length = effectiveAssociativity c) ∧ NoDuplicateTags s := by
  induction h with
  | init =>
    constructor
    · intro set hset
      rw [initialCache, List.mem_replicate] at hset
      rw [hset.2]
      simp
    · intro set hset i j li lj hi _ hvi _ _
      rw [initialCache, List.mem_replicate] at hset
      rw [hset.2] at hi
      have hli : li = emptyLine := (List.mem_replicate.mp (List.getElem?_mem hi)).2
      rw [hli] at hvi
      cases hvi
  | step stats address o _ hacc ih =>
    constructor
    · obtain ⟨set, set2, hs, hlen, hnew⟩ := accessMemory_newCacheState c _ stats address o hacc
      rw [hnew]
      intro x hx
      rcases List.mem_or_eq_of_mem_set hx with hx | hx
      · exact ih.1 x hx
      · rw [hx, hlen]
        exact ih.1 set (List.getElem?_mem hs)
    · exact noDuplicateTags_step c _ stats address o hacc ih.1 ih.2

/-- C5: in every store reached from the all-invalid initial store by a finite sequence of
`accessMemory` calls (whatever addresses they are given and whatever `stats` values they
read), no set contains two valid ways carrying the same tag. -/
theorem reachable_noDuplicateTags (c : CacheConfig) (s : CacheState) (h : Reachable c s) :
    NoDuplicateTags s :=
  (reachable_invariant c s h).2

/-! ## C8 -/

theorem direct_mapped_miss (c : CacheConfig) (s : CacheState) (stats : Stats) (a : Int)
    (line : CacheLine) (hdm : effectiveAssociativity c = 1)
    (hs : s[(getSetAndTag c a).setIndex.toNat]? = some [line])
    (hline : line.valid = true →
      line.tag ≠ (getSetAndTag c a).tag ∧ line.lastUsed < MAX_SAFE_INTEGER) :
    accessMemory c s stats a =
      some { newCacheState := s.set (getSetAndTag c a).setIndex.toNat [filledLine c stats a]
             hit := false
             setIndex := (getSetAndTag c a).setIndex
             wayAccessed := 0 } := by
  have hnn : ¬ ((getSetAndTag c a).setIndex < 0) := by
    have := (setIndex_bounds c a).1
    omega
  unfold accessMemory
  simp only [hnn, if_false, hs, hdm]
  cases hv : line.valid with
  | false =>
    simp [hitLoop, hv, chooseWay, emptyLoop, writeWay, filledLine]
  | true =>
    obtain ⟨h1, h2⟩ := hline hv
    simp [hitLoop, hv, h1, chooseWay, emptyLoop, lruLoop, h2, writeWay, filledLine]

theorem alternating_length (x y : Int) (N : Nat) : (alternating x y N).length = 2 * N := by
  induction N with
  | zero => rfl
  | succ N ih => simp [alternating, ih]; omega

theorem alternating_getElem? (x y : Int) :
    ∀ (N i : Nat), (alternating x y N)[i]? =
      if i < 2 * N then some (if i % 2 = 0 then x else y) else none := by
  intro N
  induction N with
  | zero => intro i; simp [alternating]
  | succ N ih =>
    intro i
    match i with
    | 0 => simp [alternating]
    | 1 =>
      have h : 1 < 2 * (N + 1) := by omega
      simp [alternating, h]
    | k + 2 =>
      simp only [alternating, List.getElem?_cons_succ, ih k]
      have e : (k + 2) % 2 = k % 2 := by omega
      by_cases hk : k < 2 * N
      · have hk2 : k + 2 < 2 * (N + 1) := by omega
        simp [hk, hk2, e]
      · have hk2 : ¬ (k + 2 < 2 * (N + 1)) := by omega
        simp [hk, hk2]

/-- A run over addresses of one set of a direct-mapped store, each with a tag other than
the one before it: every access misses and leaves its own line in the one way. -/
theorem thrash_run (c : CacheConfig) (stats : Stats) (si : Int)
    (hdm : effectiveAssociativity c = 1)
    (hclock : stats.accesses + 1 < MAX_SAFE_INTEGER) :
    ∀ (L : List Int) (s : CacheState) (comp : Component) (line : CacheLine),
      (∀ a ∈ L, (getSetAndTag c a).setIndex = si) →
      (∀ (i : Nat) (a b : Int), L[i]? = some a → L[i + 1]? = some b →
        (getSetAndTag c a).tag ≠ (getSetAndTag c b).tag) →
      s[si.toNat]? = some [line] →
      (∀ a, L[0]? = some a → line.valid = true →
        line.tag ≠ (getSetAndTag c a).tag ∧ line.lastUsed < MAX_SAFE_INTEGER) →
      comp.cacheState = s →
      ∃ s2 comp2, intervalTicks c stats s comp L = some (s2, comp2) ∧
        comp2.stats = { hits := comp.stats.hits, misses := comp.stats.misses + L.length,
                        accesses := comp.stats.accesses + L.length } ∧
        comp2.memoryAccesses = comp.memoryAccesses ++
          L.map (fun a => { address := a, hit := false, setIndex := si, wayAccessed := 0 }) ∧
        comp2.cacheState = s2 ∧
        ∀ a, L[L.length - 1]? = some a → s2 = s.set si.toNat [filledLine c stats a] := by
  intro L
  induction L with
  | nil =>
    intro s comp line _ _ _ _ hcs
    exact ⟨s, _, rfl, by simp, by simp, hcs, by simp⟩
  | cons a rest ih =>
    intro s comp line hsi hchain hs hline hcs
    have hsa : (getSetAndTag c a).setIndex = si := hsi a (List.mem_cons_self _ _)
    have hidx : si.toNat < s.length := (List.getElem?_eq_some.mp hs).1
    have h1 := direct_mapped_miss c s stats a line hdm (by rw [hsa]; exact hs)
      (hline a (by simp))
    rw [hsa] at h1
    obtain ⟨s2, comp2, hrun, hstats, hrec, hcs2, hlast⟩ := ih (s.set si.toNat [filledLine c stats a])
      (commitAccess comp a
        { newCacheState := s.set si.toNat [filledLine c stats a]
          hit := false
          setIndex := si
          wayAccessed := 0 })
      (filledLine c stats a)
      (fun b hb => hsi b (List.mem_cons_of_mem _ hb))
      (fun i p q hp hq => hchain (i + 1) p q (by simpa using hp) (by simpa using hq))
      (by simp [hidx])
      (fun b hb _ => ⟨hchain 0 a b (by simp) (by simpa using hb), hclock⟩)
      rfl
    refine ⟨s2, comp2, ?_, ?_, ?_, hcs2, ?_⟩
    · simp only [intervalTicks, h1]
      exact hrun
    · rw [hstats]
      simp only [commitAccess, Bool.false_eq_true, if_false, List.length_cons]
      congr 1 <;> omega
    · rw [hrec]
      simp [commitAccess]
    · intro b hb
      cases rest with
      | nil =>
        simp only [List.length_cons, List.length_nil, Nat.zero_add, Nat.sub_self,
          List.getElem?_cons_zero, Option.some.injEq] at hb
        subst hb
        simp only [intervalTicks, Option.some.injEq, Prod.mk.injEq] at hrun
        exact hrun.1.symm
      | cons r rest2 =>
        have hb2 : (r :: rest2)[(r :: rest2).length - 1]? = some b := by
          simpa using hb
        rw [hlast b hb2, List.set_set]

/-- C8: for every direct-mapped valid geometry and every two addresses `x`, `y` that
decode to the same `setIndex` and different tags, a run that starts from the empty store
and feeds `x, y, x, y, ...` for `N` rounds (any `N`, those with `N >= 2` among them)
returns; every access is a miss in way 0 of the one set, the run ends with `hits = 0` and
`misses = 2N`; and each access overwrites the line left by the previous one: right after
the access of rank `j` the store is the empty store with the one way of that set holding
the valid line of that access (its tag, which differs from the tag of the access before). -/
theorem direct_mapped_alternation_thrashes (c : CacheConfig) (pattern : AccessPattern)
    (x y : Int) (N : Nat) (hv : ValidGeometry c) (hdm : c.associativity = .ways 1)
    (hset : (getSetAndTag c x).setIndex = (getSetAndTag c y).setIndex)
    (htag : (getSetAndTag c x).tag ≠ (getSetAndTag c y).tag) :
    ∃ s2 comp2,
      intervalTicks c { hits := 0, misses := 0, accesses := 0 } (initialCache c)
        (runStart c pattern) (alternating x y N) = some (s2, comp2) ∧
      comp2.stats = { hits := 0, misses := 2 * N, accesses := 2 * N } ∧
      comp2.memoryAccesses.length = 2 * N ∧
      (∀ r ∈ comp2.memoryAccesses,
        r.hit = false ∧ r.setIndex = (getSetAndTag c x).setIndex ∧ r.wayAccessed = 0) ∧
      comp2.memoryAccesses = (alternating x y N).map (fun a =>
        { address := a, hit := false, setIndex := (getSetAndTag c x).setIndex,
          wayAccessed := 0 }) ∧
      comp2.cacheState = s2 ∧
      (1 ≤ N → s2 = (initialCache c).set (getSetAndTag c x).setIndex.toNat
        [{ valid := true, tag := (getSetAndTag c y).tag, lastUsed := 1 }]) ∧
      ∀ (j : Nat) (a : Int), (alternating x y N)[j]? = some a →
        ∃ sj compj,
          intervalTicks c { hits := 0, misses := 0, accesses := 0 } (initialCache c)
            (runStart c pattern) ((alternating x y N).take (j + 1)) = some (sj, compj) ∧
          compj.cacheState = sj ∧
          sj = (initialCache c).set (getSetAndTag c x).setIndex.toNat
            [{ valid := true, tag := (getSetAndTag c a).tag, lastUsed := 1 }] := by
  have hways : effectiveAssociativity c = 1 := by
    unfold effectiveAssociativity; rw [hdm]
  have hshape : WellShaped c (initialCache c) := by
    constructor
    · simp [initialCache]
    · intro set hset
      rw [initialCache, List.mem_replicate] at hset
      rw [hset.2]; simp
  obtain ⟨set, hs, hmem, _⟩ := addressed_set_exists c (initialCache c) x hv hshape
  have hsetv : set = [emptyLine] := by
    rw [initialCache, List.mem_replicate] at hmem
    rw [hmem.2, hways]; rfl
  rw [hsetv] at hs
  have hval : ∀ (i : Nat) (a : Int), (alternating x y N)[i]? = some a →
      i < 2 * N ∧ a = (if i % 2 = 0 then x else y) := by
    intro i a hi
    rw [alternating_getElem?] at hi
    by_cases h : i < 2 * N
    · simp only [h, if_true, Option.some.injEq] at hi
      exact ⟨h, hi.symm⟩
    · simp [h] at hi
  have hsame : ∀ L : List Int, (∀ (i : Nat) (a : Int), L[i]? = some a →
      (alternating x y N)[i]? = some a) →
      (∀ a ∈ L, (getSetAndTag c a).setIndex = (getSetAndTag c x).setIndex) ∧
      (∀ (i : Nat) (a b : Int), L[i]? = some a → L[i + 1]? = some b →
        (getSetAndTag c a).tag ≠ (getSetAndTag c b).tag) := by
    intro L hL
    constructor
    · intro a ha
      obtain ⟨i, hi⟩ := List.getElem?_of_mem ha
      obtain ⟨_, rfl⟩ := hval i a (hL i a hi)
      split
      · rfl
      · exact hset.symm
    · intro i a b ha hb
      obtain ⟨_, rfl⟩ := hval i a (hL i a ha)
      obtain ⟨_, rfl⟩ := hval (i + 1) b (hL (i + 1) b hb)
      by_cases he : i % 2 = 0
      · have he2 : ¬ ((i + 1) % 2 = 0) := by omega
        simp only [he, he2, if_true, if_false]
        exact htag
      · have he2 : (i + 1) % 2 = 0 := by omega
        simp only [he, he2, if_true, if_false]
        exact fun h => htag h.symm
  have hrunL : ∀ L : List Int, (∀ (i : Nat) (a : Int), L[i]? = some a →
      (alternating x y N)[i]? = some a) →
      ∃ s2 comp2, intervalTicks c { hits := 0, misses := 0, accesses := 0 } (initialCache c)
          (runStart c pattern) L = some (s2, comp2) ∧
        comp2.stats = { hits := 0, misses := L.length, accesses := L.length } ∧
        comp2.memoryAccesses = L.map (fun a =>
          { address := a, hit := false, setIndex := (getSetAndTag c x).setIndex,
            wayAccessed := 0 }) ∧
        comp2.cacheState = s2 ∧
        ∀ a, L[L.length - 1]? = some a →
          s2 = (initialCache c).set (getSetAndTag c x).setIndex.toNat
            [{ valid := true, tag := (getSetAndTag c a).tag, lastUsed := 1 }] := by
    intro L hL
    obtain ⟨h1, h2⟩ := hsame L hL
    obtain ⟨s2, comp2, hrun, hstats, hrec, hcs, hlast⟩ :=
      thrash_run c { hits := 0, misses := 0, accesses := 0 } (getSetAndTag c x).setIndex hways
        (by decide) L (initialCache c) (runStart c pattern) emptyLine h1 h2 hs
        (fun _ _ h => by simp [emptyLine] at h) rfl
    refine ⟨s2, comp2, hrun, ?_, ?_, hcs, ?_⟩
    · rw [hstats]; simp [runStart, afterConfigEffect]
    · rw [hrec]; simp [runStart, afterConfigEffect]
    · intro a ha
      rw [hlast a ha]
      rfl
  obtain ⟨s2, comp2, hrun, hstats, hrec, hcs, hlast⟩ := hrunL (alternating x y N) (fun _ _ h => h)
  refine ⟨s2, comp2, hrun, ?_, ?_, ?_, hrec, hcs, ?_, ?_⟩
  · rw [hstats, alternating_length]
  · rw [hrec]; simp [alternating_length]
  · intro r hr
    rw [hrec] at hr
    simp only [List.mem_map] at hr
    obtain ⟨a, _, rfl⟩ := hr
    exact ⟨rfl, rfl, rfl⟩
  · intro hN
    apply hlast y
    rw [alternating_getElem?, alternating_length]
    have h1 : 2 * N - 1 < 2 * N := by omega
    have h2 : ¬ ((2 * N - 1) % 2 = 0) := by omega
    simp [h1, h2]
  · intro j a hj
    have hjN : j < (alternating x y N).length := (List.getElem?_eq_some.mp hj).1
    obtain ⟨sj, compj, hrunj, _, _, hcsj, hlastj⟩ := hrunL ((alternating x y N).take (j + 1))
      (by
        intro i b hi
        rw [List.getElem?_take] at hi
        split at hi
        · exact hi
        · cases hi)
    refine ⟨sj, compj, hrunj, hcsj, ?_⟩
    apply hlastj a
    have hlen : ((alternating x y N).take (j + 1)).length - 1 = j := by
      rw [List.length_take]; omega
    rw [hlen, List.getElem?_take_of_succ]
    exact hj

/-! ## C7 -/

theorem fully_decode (c : CacheConfig) (a : Int) (hf : c.associativity = .fully) :
    (getSetAndTag c a).setIndex = 0 ∧ (getSetAndTag c a).tag = jsSar a (blockOffsetBits c) := by
  unfold getSetAndTag isFullyAssociative
  rw [hf]
  simp

theorem filledWays_again (c : CacheConfig) (s : CacheState) (k : Nat) (T : List Int)
    (stats : Stats) (a : Int) (hf : c.associativity = .fully)
    (hinv : FilledWays c s k T) (hk : k ≤ effectiveAssociativity c)
    (hin : (getSetAndTag c a).tag ∈ T) :
    ∃ o, accessMemory c s stats a = some o ∧ o.hit = true ∧
      FilledWays c o.newCacheState k T ∧ KeepsValidLines s o.newCacheState := by
  obtain ⟨set, rfl, hlen, hvalid, hinvalid, hres, hdist⟩ := hinv
  have hsi : (getSetAndTag c a).setIndex.toNat = 0 := by rw [(fully_decode c a hf).1]; rfl
  have hs : [set][(getSetAndTag c a).setIndex.toNat]? = some set := by rw [hsi]; rfl
  obtain ⟨i, hik, lw, hlw, hlwv, hlwt⟩ := hres _ hin
  obtain ⟨o, line, ho, hh, _, _, hline, hnew⟩ :=
    accessMemory_hit_at c [set] stats a set i hs (by omega) (by omega) ⟨lw, hlw, hlwv, hlwt⟩
      (by
        intro j hj
        obtain ⟨lj, hlj, hljv, _⟩ := hvalid j (by omega)
        refine ⟨lj, hlj, ?_⟩
        rintro ⟨_, hjt⟩
        have := hdist j i lj lw hlj hlw hljv hlwv (by rw [hjt, hlwt])
        omega)
  rw [hlw] at hline
  cases hline
  have hil : i < set.length := by omega
  refine ⟨o, ho, hh, ?_, ?_⟩
  · rw [hnew, hsi]
    have back : ∀ (j : Nat) (lj : CacheLine),
        (set.set i { lw with lastUsed := stats.accesses + 1 })[j]? = some lj →
        ∃ l0, set[j]? = some l0 ∧ l0.valid = lj.valid ∧ l0.tag = lj.tag := by
      intro j lj hj
      rw [List.getElem?_set] at hj
      by_cases hij : i = j
      · subst hij
        simp only [if_true, hil] at hj
        cases hj
        exact ⟨lw, hlw, rfl, rfl⟩
      · simp only [hij, if_false] at hj
        exact ⟨lj, hj, rfl, rfl⟩
    have fwd : ∀ (j : Nat) (l0 : CacheLine), set[j]? = some l0 →
        ∃ lj, (set.set i { lw with lastUsed := stats.accesses + 1 })[j]? = some lj ∧
          lj.valid = l0.valid ∧ lj.tag = l0.tag := by
      intro j l0 hj
      by_cases hij : i = j
      · subst hij
        rw [hlw] at hj
        cases hj
        exact ⟨{ lw with lastUsed := stats.accesses + 1 }, by simp [hil], rfl, rfl⟩
      · exact ⟨l0, by rw [List.getElem?_set_ne hij]; exact hj, rfl, rfl⟩
    refine ⟨_, rfl, by simp [hlen], ?_, ?_, ?_, ?_⟩
    · intro j hj
      obtain ⟨l0, h0, hv0, ht0⟩ := hvalid j hj
      obtain ⟨lj, h1, hv1, ht1⟩ := fwd j l0 h0
      exact ⟨lj, h1, by rw [hv1]; exact hv0, by rw [ht1]; exact ht0⟩
    · intro j hj1 hj2
      obtain ⟨l0, h0, hv0⟩ := hinvalid j hj1 hj2
      obtain ⟨lj, h1, hv1, _⟩ := fwd j l0 h0
      exact ⟨lj, h1, hv1.trans hv0⟩
    · intro t ht
      obtain ⟨j, hjk, l0, h0, hv0, ht0⟩ := hres t ht
      obtain ⟨lj, h1, hv1, ht1⟩ := fwd j l0 h0
      exact ⟨j, hjk, lj, h1, by rw [hv1]; exact hv0, by rw [ht1]; exact ht0⟩
    · intro j1 j2 l1 l2 h1 h2 hv1 hv2 htt
      obtain ⟨m1, g1, gv1, gt1⟩ := back j1 l1 h1
      obtain ⟨m2, g2, gv2, gt2⟩ := back j2 l2 h2
      exact hdist j1 j2 m1 m2 g1 g2 (by rw [gv1]; exact hv1) (by rw [gv2]; exact hv2)
        (by rw [gt1, gt2]; exact htt)
  · rw [hnew]
    exact keepsValidLines_touch [set] _ i set lw _ hs hlw

theorem filledWays_fresh (c : CacheConfig) (s : CacheState) (k : Nat) (T : List Int)
    (stats : Stats) (a : Int) (hf : c.associativity = .fully)
    (hinv : FilledWays c s k T) (hk : k < effectiveAssociativity c)
    (hnotin : (getSetAndTag c a).tag ∉ T) :
    ∃ o, accessMemory c s stats a = some o ∧ o.hit = false ∧
      FilledWays c o.newCacheState (k + 1) ((getSetAndTag c a).tag :: T) ∧
      KeepsValidLines s o.newCacheState := by
  obtain ⟨set, rfl, hlen, hvalid, hinvalid, hres, hdist⟩ := hinv
  have hsi : (getSetAndTag c a).setIndex.toNat = 0 := by rw [(fully_decode c a hf).1]; rfl
  have hs : [set][(getSetAndTag c a).setIndex.toNat]? = some set := by rw [hsi]; rfl
  have hno : ∀ j, j < effectiveAssociativity c →
      WayHas set j (fun l => ¬ (l.valid = true ∧ l.tag = (getSetAndTag c a).tag)) := by
    intro j hj
    by_cases hjk : j < k
    · obtain ⟨l, hl, _, hlt⟩ := hvalid j hjk
      refine ⟨l, hl, ?_⟩
      rintro ⟨_, h⟩
      rw [h] at hlt
      exact hnotin hlt
    · obtain ⟨l, hl, hlv⟩ := hinvalid j (by omega) hj
      refine ⟨l, hl, ?_⟩
      rintro ⟨h, _⟩
      rw [hlv] at h
      cases h
  obtain ⟨o, ho, hh, _, hch, hnew⟩ := accessMemory_miss_of c [set] stats a set hs (by omega) hno
  have hway : o.wayAccessed = (k : Int) := by
    obtain ⟨lk, hlk, hlkv⟩ := hinvalid k (le_refl _) hk
    rcases chooseWay_spec _ _ _ hch with ⟨j, h1, _, ⟨lj, hlj, hljv⟩, h4⟩ | ⟨hall, _⟩
    · have hjk : j = k := by
        rcases Nat.lt_trichotomy j k with hlt | heq | hgt
        · obtain ⟨l, hl, hlv, _⟩ := hvalid j hlt
          rw [hlj] at hl
          cases hl
          rw [hljv] at hlv
          cases hlv
        · exact heq
        · obtain ⟨l, hl, hlv⟩ := h4 k hgt
          rw [hlk] at hl
          cases hl
          rw [hlkv] at hlv
          cases hlv
      rw [h1, hjk]
    · obtain ⟨l, hl, hlv⟩ := hall k hk
      rw [hlk] at hl
      cases hl
      rw [hlkv] at hlv
      cases hlv
  have hwr : writeWay set o.wayAccessed (filledLine c stats a) =
      set.set k (filledLine c stats a) := by
    rw [hway]; unfold writeWay; simp
  rw [hwr, hsi] at hnew
  have hkl : k < set.length := by omega
  refine ⟨o, ho, hh, ?_, ?_⟩
  · rw [hnew]
    refine ⟨_, rfl, by simp [hlen], ?_, ?_, ?_, ?_⟩
    · intro j hj
      by_cases hjk : k = j
      · subst hjk
        exact ⟨filledLine c stats a, by simp [hkl], rfl, by simp [filledLine]⟩
      · obtain ⟨l, hl, hlv, hlt⟩ := hvalid j (by omega)
        exact ⟨l, by rw [List.getElem?_set_ne hjk]; exact hl, hlv, List.mem_cons_of_mem _ hlt⟩
    · intro j hj1 hj2
      have hjk : k ≠ j := by omega
      obtain ⟨l, hl, hlv⟩ := hinvalid j (by omega) hj2
      exact ⟨l, by rw [List.getElem?_set_ne hjk]; exact hl, hlv⟩
    · intro t ht
      rcases List.mem_cons.mp ht with rfl | ht
      · exact ⟨k, by omega, filledLine c stats a, by simp [hkl], rfl, rfl⟩
      · obtain ⟨j, hjk, l, hl, hlv, hlt⟩ := hres t ht
        have hne : k ≠ j := by omega
        exact ⟨j, by omega, l, by rw [List.getElem?_set_ne hne]; exact hl, hlv, hlt⟩
    · intro j1 j2 l1 l2 h1 h2 hv1 hv2 htt
      have clash : ∀ (j : Nat) (lj : CacheLine), k ≠ j →
          (set.set k (filledLine c stats a))[j]? = some lj → lj.valid = true →
          lj.tag = (getSetAndTag c a).tag → False := by
        intro j lj hne hj hvj htj
        rw [List.getElem?_set_ne hne] at hj
        have hjl : j < set.length := (List.getElem?_eq_some.mp hj).1
        obtain ⟨l, hl, hnm⟩ := hno j (by omega)
        rw [hj] at hl
        cases hl
        exact hnm ⟨hvj, htj⟩
      have filled : ∀ (lk : CacheLine),
          (set.set k (filledLine c stats a))[k]? = some lk →
          lk.tag = (getSetAndTag c a).tag := by
        intro lk hlk
        simp only [List.getElem?_set_self hkl, Option.some.injEq] at hlk
        rw [← hlk]; rfl
      by_cases hk1 : k = j1
      · by_cases hk2 : k = j2
        · omega
        · subst hk1
          exact (clash j2 l2 hk2 h2 hv2 (by rw [← htt]; exact filled l1 h1)).elim
      · by_cases hk2 : k = j2
        · subst hk2
          exact (clash j1 l1 hk1 h1 hv1 (by rw [htt]; exact filled l2 h2)).elim
        · rw [List.getElem?_set_ne hk1] at h1
          rw [List.getElem?_set_ne hk2] at h2
          exact hdist j1 j2 l1 l2 h1 h2 hv1 hv2 htt
  · rw [hnew, ← hsi]
    exact keepsValidLines_write_invalid [set] _ k set _ hs (hinvalid k (le_refl _) hk)

theorem accessTrace_cons (c : CacheConfig) (s : CacheState) (stats : Stats) (a : Int)
    (rest : List (Stats × Int)) (o : AccessOutcome)
    (h : accessMemory c s stats a = some o) :
    accessTrace c s ((stats, a) :: rest) =
      (accessTrace c o.newCacheState rest).map (fun t => (s, o) :: t) := by
  simp only [accessTrace, h]

theorem accessTrace_again (c : CacheConfig) (k : Nat) (T : List Int)
    (hf : c.associativity = .fully) (hk : k ≤ effectiveAssociativity c) :
    ∀ (again : List (Stats × Int)) (s : CacheState), FilledWays c s k T →
      (∀ q ∈ again, (getSetAndTag c q.2).tag ∈ T) →
      ∃ t2, accessTrace c s again = some t2 ∧ t2.length = again.length ∧
        ∀ e ∈ t2, e.2.hit = true ∧ KeepsValidLines e.1 e.2.newCacheState := by
  intro again
  induction again with
  | nil =>
    intro s _ _
    exact ⟨[], rfl, rfl, by simp⟩
  | cons q rest ih =>
    intro s hinv hin
    obtain ⟨o, ho, hh, hinv2, hkeep⟩ :=
      filledWays_again c s k T q.1 q.2 hf hinv hk (hin q (List.mem_cons_self _ _))
    obtain ⟨t2, ht2, hlen, hall⟩ := ih o.newCacheState hinv2
      (fun r hr => hin r (List.mem_cons_of_mem _ hr))
    refine ⟨(s, o) :: t2, ?_, by simp [hlen], ?_⟩
    · obtain ⟨st, a⟩ := q
      rw [accessTrace_cons c s st a rest o ho, ht2]
      rfl
    · intro e he
      rcases List.mem_cons.mp he with rfl | he
      · exact ⟨hh, hkeep⟩
      · exact hall e he

theorem accessTrace_first_then_again (c : CacheConfig) (again : List (Stats × Int))
    (hf : c.associativity = .fully) :
    ∀ (first : List (Stats × Int)) (s : CacheState) (k : Nat) (T : List Int),
      FilledWays c s k T → k + first.length ≤ effectiveAssociativity c →
      (first.map (fun p => (getSetAndTag c p.2).tag)).Nodup →
      (∀ p ∈ first, (getSetAndTag c p.2).tag ∉ T) →
      (∀ q ∈ again, (getSetAndTag c q.2).tag ∈ T ∨
        ∃ p ∈ first, (getSetAndTag c q.2).tag = (getSetAndTag c p.2).tag) →
      ∃ t1 t2, accessTrace c s (first ++ again) = some (t1 ++ t2) ∧
        t1.length = first.length ∧ t2.length = again.length ∧
        (∀ e ∈ t1, KeepsValidLines e.1 e.2.newCacheState) ∧
        ∀ e ∈ t2, e.2.hit = true ∧ KeepsValidLines e.1 e.2.newCacheState := by
  intro first
  induction first with
  | nil =>
    intro s k T hinv hk _ _ hagain
    obtain ⟨t2, ht2, hlen, hall⟩ := accessTrace_again c k T hf (by simpa using hk) again s hinv
      (by
        intro q hq
        rcases hagain q hq with h | ⟨p, hp, _⟩
        · exact h
        · cases hp)
    exact ⟨[], t2, by simpa using ht2, rfl, hlen, by simp, hall⟩
  | cons p rest ih =>
    intro s k T hinv hk hnd hfresh hagain
    simp only [List.length_cons] at hk
    simp only [List.map_cons, List.nodup_cons] at hnd
    obtain ⟨o, ho, _, hinv2, hkeep⟩ :=
      filledWays_fresh c s k T p.1 p.2 hf hinv (by omega) (hfresh p (List.mem_cons_self _ _))
    obtain ⟨t1, t2, htr, hl1, hl2, hk1, hall⟩ := ih o.newCacheState (k + 1)
      ((getSetAndTag c p.2).tag :: T) hinv2 (by omega) hnd.2
      (by
        intro r hr hmem
        rcases List.mem_cons.mp hmem with h | h
        · exact hnd.1 (by rw [← h]; exact List.mem_map_of_mem _ hr)
        · exact hfresh r (List.mem_cons_of_mem _ hr) h)
      (by
        intro q hq
        rcases hagain q hq with h | ⟨r, hr, hrt⟩
        · exact Or.inl (List.mem_cons_of_mem _ h)
        · rcases List.mem_cons.mp hr with rfl | hr
          · exact Or.inl (by rw [hrt]; exact List.mem_cons_self _ _)
          · exact Or.inr ⟨r, hr, hrt⟩)
    refine ⟨(s, o) :: t1, t2, ?_, by simp [hl1], hl2, ?_, hall⟩
    · obtain ⟨st, a⟩ := p
      rw [List.cons_append, accessTrace_cons c s st a (rest ++ again) o ho, htr]
      rfl
    · intro e he
      rcases List.mem_cons.mp he with rfl | he
      · exact hkeep
      · exact hk1 e he

/-- C7: for every fully associative geometry and every list of `N <= effectiveWays`
addresses lying in pairwise distinct blocks (distinct `address >> blockOffsetBits`),
starting from the empty store, the calls of `accessMemory` on the `N` addresses in order
followed by calls on addresses of the list in any order and number all return, every one
of the re-accesses is a hit, and no call of the whole sequence overwrites a valid line.
The `stats` value read by each call is arbitrary. -/
theorem fully_associative_reaccess_hits (c : CacheConfig) (first again : List (Stats × Int))
    (hf : c.associativity = .fully)
    (hN : first.length ≤ effectiveAssociativity c)
    (hdistinct : (first.map (fun p => jsSar p.2 (blockOffsetBits c))).Nodup)
    (hagain : ∀ q ∈ again, ∃ p ∈ first, q.2 = p.2) :
    ∃ t1 t2, accessTrace c (initialCache c) (first ++ again) = some (t1 ++ t2) ∧
      t1.length = first.length ∧ t2.length = again.length ∧
      (∀ e ∈ t2, e.2.hit = true) ∧
      ∀ e ∈ t1 ++ t2, KeepsValidLines e.1 e.2.newCacheState := by
  have hinit : FilledWays c (initialCache c) 0 [] := by
    refine ⟨List.replicate (effectiveAssociativity c) emptyLine, ?_, by simp, ?_, ?_, ?_, ?_⟩
    · simp [initialCache, effectiveNumSets, isFullyAssociative, hf]
    · intro i hi; omega
    · intro i _ hi
      exact ⟨emptyLine, by simp [hi], rfl⟩
    · intro t ht; cases ht
    · intro i j li lj hi _ hvi _ _
      have hli : li = emptyLine := (List.mem_replicate.mp (List.getElem?_mem hi)).2
      rw [hli] at hvi
      cases hvi
  have htags : first.map (fun p => (getSetAndTag c p.2).tag) =
      first.map (fun p => jsSar p.2 (blockOffsetBits c)) := by
    apply List.map_congr_left
    intro p _
    exact (fully_decode c p.2 hf).2
  obtain ⟨t1, t2, htr, hl1, hl2, hk1, hall⟩ :=
    accessTrace_first_then_again c again hf first (initialCache c) 0 [] hinit (by omega)
      (by rw [htags]; exact hdistinct) (by intro p _ h; cases h)
      (by
        intro q hq
        obtain ⟨p, hp, hqp⟩ := hagain q hq
        exact Or.inr ⟨p, hp, by rw [hqp]⟩)
  refine ⟨t1, t2, htr, hl1, hl2, fun e he => (hall e he).1, ?_⟩
  intro e he
  rcases List.mem_append.mp he with h | h
  · exact hk1 e h
  · exact (hall e h).2

/-! ## Evaluations: C2, C6, C9, and the failing inputs of C3 and C4 -/

/-- C3 (counterexample): `twoWayConfig` is a valid geometry and `saturatedStore` is
well-shaped for it, yet after a first `accessMemory(0)` the second `accessMemory(0)` is a
miss again, reported with `wayAccessed = -1`. -/
theorem second_access_misses_at_saturated_store :
    ValidGeometry twoWayConfig ∧ WellShaped twoWayConfig saturatedStore ∧
    (accessMemory twoWayConfig saturatedStore zeroStats 0).map (fun o => o.hit) = some false ∧
    ((accessMemory twoWayConfig saturatedStore zeroStats 0).bind
        (fun o => accessMemory twoWayConfig o.newCacheState zeroStats 0)).map
      (fun o => (o.hit, o.wayAccessed)) = some (false, -1) := by
  refine ⟨by decide, ?_, by decide, by decide⟩
  unfold WellShaped
  decide

/-- C4 (counterexample): under the default configuration, a valid geometry, the 32-bit
unsigned address `2^31` decodes to a negative tag. -/
theorem tag_negative_at_two_pow_31 :
    ValidGeometry defaultConfig ∧ (0 : Int) ≤ 2147483648 ∧ (2147483648 : Int) < 4294967296 ∧
    (getSetAndTag defaultConfig 2147483648).tag = -33554432 := by
  decide

set_option maxRecDepth 100000 in
/-- C2 (code bug): a run under `twoWayConfig` started from the store built by the effect,
with the `'random'` pattern drawing `0, 128, 0, 256, 256, ...` (tags A, B, A, C of set 0).
Every call of `accessMemory` writes `lastUsed = 1`, the fourth access (C) is a miss in the
full set and replaces way 0, which holds A, the line used most recently; B stays. -/
theorem lru_run_evicts_most_recently_used :
    (runSimulation (afterConfigEffect twoWayConfig .random) abacDraws).map
        (fun comp => (comp.memoryAccesses.take 4, comp.cacheState[0]?)) =
      some ([{ address := 0, hit := false, setIndex := 0, wayAccessed := 0 },
             { address := 128, hit := false, setIndex := 0, wayAccessed := 1 },
             { address := 0, hit := true, setIndex := 0, wayAccessed := 0 },
             { address := 256, hit := false, setIndex := 0, wayAccessed := 0 }],
            some [{ valid := true, tag := 2, lastUsed := 1 },
                  { valid := true, tag := 1, lastUsed := 1 }]) ∧
    (intervalTicks twoWayConfig zeroStats (initialCache twoWayConfig)
        (runStart twoWayConfig .random) [0, 128, 0]).map (fun r => r.1[0]?) =
      some (some [{ valid := true, tag := 0, lastUsed := 1 },
                  { valid := true, tag := 1, lastUsed := 1 }]) := by
  decide

set_option maxRecDepth 100000 in
/-- C6 (code bug): after a first run of the `'strided'` pattern under the default
configuration the component holds `stats.accesses = 100` and a store whose set 0 has four
valid lines.  A second run is started in that state: the closure of `accessMemory` reads
that store and that clock, and the first access of the second run (address 0) is a hit. -/
theorem second_run_starts_on_previous_store :
    afterFirstStridedRun.map (fun comp => (comp.running, comp.stats, comp.cacheState[0]?)) =
      some (false, { hits := 96, misses := 4, accesses := 100 },
            some [{ valid := true, tag := 0, lastUsed := 1 },
                  { valid := true, tag := 4, lastUsed := 1 },
                  { valid := true, tag := 8, lastUsed := 1 },
                  { valid := true, tag := 12, lastUsed := 1 }]) ∧
    (afterFirstStridedRun.bind (fun comp => runSimulation comp (fun _ => 0))).map
        (fun comp => (comp.memoryAccesses.head?, comp.stats)) =
      some (some { address := 0, hit := true, setIndex := 0, wayAccessed := 0 },
            { hits := 100, misses := 0, accesses := 100 }) ∧
    (afterFirstStridedRun.bind
        (fun comp => accessMemory defaultConfig comp.cacheState comp.stats 0)).map
        (fun o => (o.hit, o.newCacheState[0]?.bind (fun set => set[0]?))) =
      some (true, some { valid := true, tag := 0, lastUsed := 101 }) := by
  decide

/-- C9 (code bug): with the selectable sizes 128 and 64 and the current associativity 4
(or 8), both handlers leave the associativity at 4 although `numBlocks = 128 / 64 = 2`:
4 does not divide 2, and `numSets = 2 / 4` is one half. -/
theorem size_handlers_leave_invalid_associativity :
    onBlockSizeChange { cacheSize := 128, blockSize := 32, associativity := .ways 4 } 64 =
      { cacheSize := 128, blockSize := 64, associativity := .ways 4 } ∧
    onCacheSizeChange { cacheSize := 512, blockSize := 64, associativity := .ways 8 } 128 =
      { cacheSize := 128, blockSize := 64, associativity := .ways 4 } ∧
    numBlocks { cacheSize := 128, blockSize := 64, associativity := .ways 4 } = 2 ∧
    ¬ AssociativityValid { cacheSize := 128, blockSize := 64, associativity := .ways 4 } ∧
    ((128 : ℚ) / 64) / 4 = 1 / 2 := by
  refine ⟨by decide, by decide, by decide, by decide, by norm_num⟩

/-! ## Instances at concrete inputs -/

theorem agedStore_runStore : RunStore twoWayConfig agedStore :=
  RunStore.step { hits := 1, misses := 5, accesses := 6 } 640
    { newCacheState := agedStore, hit := true, setIndex := 0, wayAccessed := 0 }
    (RunStore.step { hits := 0, misses := 2, accesses := 2 } 768
      { newCacheState :=
          [[{ valid := true, tag := 5, lastUsed := 1 }, { valid := true, tag := 6, lastUsed := 3 }],
           [emptyLine, emptyLine], [emptyLine, emptyLine], [emptyLine, emptyLine]]
        hit := false, setIndex := 0, wayAccessed := 1 }
      (RunStore.step zeroStats 640
        { newCacheState :=
            [[{ valid := true, tag := 5, lastUsed := 1 }, emptyLine],
             [emptyLine, emptyLine], [emptyLine, emptyLine], [emptyLine, emptyLine]]
          hit := false, setIndex := 0, wayAccessed := 0 }
        RunStore.init (by decide) (by decide))
      (by decide) (by decide))
    (by decide) (by decide)

/-- Witness of C1: under `twoWayConfig`, `accessMemory(0)` on `agedStore`, a store built
by three calls from the empty store, misses in a full set and overwrites way 1, the way
with the minimum `lastUsed`. -/
theorem miss_overwrites_lowest_invalid_else_lru_witness :
    0 < effectiveAssociativity twoWayConfig ∧ RunStore twoWayConfig agedStore ∧
    accessMemory twoWayConfig agedStore { hits := 4, misses := 5, accesses := 9 } 0 =
      some agedOutcome ∧
    agedOutcome.hit = false ∧
    agedStore[(getSetAndTag twoWayConfig 0).setIndex.toNat]? = some agedSet ∧
    ∃ (w : Nat) (l : CacheLine), agedOutcome.wayAccessed = (w : Int) ∧
      w < effectiveAssociativity twoWayConfig ∧ agedSet[w]? = some l ∧
      (∀ k, k < effectiveAssociativity twoWayConfig →
        WayHas agedSet k (fun m => l.lastUsed ≤ m.lastUsed)) ∧
      (∀ k, k < w → WayHas agedSet k (fun m => l.lastUsed < m.lastUsed)) ∧
      agedOutcome.newCacheState = agedStore.set (getSetAndTag twoWayConfig 0).setIndex.toNat
        (agedSet.set w (filledLine twoWayConfig { hits := 4, misses := 5, accesses := 9 } 0)) :=
  ⟨by decide, agedStore_runStore, by decide, rfl, by decide,
    (miss_overwrites_lowest_invalid_else_lru twoWayConfig agedStore
      { hits := 4, misses := 5, accesses := 9 } 0 agedOutcome agedSet (by decide)
      agedStore_runStore (by decide) rfl (by decide)).2.2
      (by
        rintro ⟨k, hk, l, hl, hv⟩
        have hk2 : k < 2 := hk
        interval_cases k
        · simp only [agedSet, List.getElem?_cons_zero, Option.some.injEq] at hl
          subst hl
          cases hv
        · simp only [agedSet, List.getElem?_cons_succ, List.getElem?_cons_zero,
            Option.some.injEq] at hl
          subst hl
          cases hv)⟩

/-- Witness of C3: two calls `accessMemory(0)` on the empty store of `twoWayConfig`. -/
theorem second_access_hits_same_way_witness :
    ValidGeometry twoWayConfig ∧ WellShaped twoWayConfig (initialCache twoWayConfig) ∧
    TimestampsSafe (initialCache twoWayConfig) ∧
    ∃ o1 o2, accessMemory twoWayConfig (initialCache twoWayConfig) zeroStats 0 = some o1 ∧
      accessMemory twoWayConfig o1.newCacheState zeroStats 0 = some o2 ∧
      o2.hit = true ∧ o2.setIndex = o1.setIndex ∧ o2.wayAccessed = o1.wayAccessed :=
  ⟨by decide, by decide, by decide,
    second_access_hits_same_way twoWayConfig (initialCache twoWayConfig) zeroStats zeroStats 0
      (by decide) (by decide) (by decide)⟩

/-- Witness of C4: the address 5000 under the default configuration. -/
theorem decode_roundtrip_and_tag_sign_witness :
    (0 : Int) ≤ 5000 ∧ (5000 : Int) < 4294967296 ∧
    ((toUint32 (jsOr (jsOr
        (jsShl (getSetAndTag defaultConfig 5000).tag
          (blockOffsetBits defaultConfig + indexBits defaultConfig))
        (jsShl (getSetAndTag defaultConfig 5000).setIndex (blockOffsetBits defaultConfig)))
      (getSetAndTag defaultConfig 5000).blockOffset) : Nat) : Int) = 5000 ∧
    ((5000 : Int) < 2147483648 → 0 ≤ (getSetAndTag defaultConfig 5000).tag) ∧
    ((2147483648 : Int) ≤ 5000 → (getSetAndTag defaultConfig 5000).tag < 0) :=
  ⟨by decide, by decide, decode_roundtrip_and_tag_sign defaultConfig 5000 (by decide) (by decide)⟩

/-- Witness of C5: the store left by `accessMemory(0)` on the empty store of
`twoWayConfig` is reachable and has no duplicate tag. -/
theorem reachable_noDuplicateTags_witness :
    Reachable twoWayConfig firstFillOutcome.newCacheState ∧
    NoDuplicateTags firstFillOutcome.newCacheState :=
  ⟨Reachable.step zeroStats 0 firstFillOutcome Reachable.init (by decide),
    reachable_noDuplicateTags twoWayConfig firstFillOutcome.newCacheState
      (Reachable.step zeroStats 0 firstFillOutcome Reachable.init (by decide))⟩

/-- Witness of C7: under `fullyConfig` (8 ways) the addresses 0, 32, 64 are accessed and
then accessed again in the order 64, 0, 32. -/
theorem fully_associative_reaccess_hits_witness :
    fullyConfig.associativity = .fully ∧
    fillCalls.length ≤ effectiveAssociativity fullyConfig ∧
    (fillCalls.map (fun p => jsSar p.2 (blockOffsetBits fullyConfig))).Nodup ∧
    (∀ q ∈ againCalls, ∃ p ∈ fillCalls, q.2 = p.2) ∧
    ∃ t1 t2, accessTrace fullyConfig (initialCache fullyConfig) (fillCalls ++ againCalls) =
        some (t1 ++ t2) ∧
      t1.length = fillCalls.length ∧ t2.length = againCalls.length ∧
      (∀ e ∈ t2, e.2.hit = true) ∧
      ∀ e ∈ t1 ++ t2, KeepsValidLines e.1 e.2.newCacheState :=
  ⟨rfl, by decide, by decide, by decide,
    fully_associative_reaccess_hits fullyConfig fillCalls againCalls rfl (by decide) (by decide)
      (by decide)⟩

/-- Witness of C8: the addresses 0 and 256 under `directMappedConfig`, two rounds. -/
theorem direct_mapped_alternation_thrashes_witness :
    ValidGeometry directMappedConfig ∧ directMappedConfig.associativity = .ways 1 ∧
    (getSetAndTag directMappedConfig 0).setIndex = (getSetAndTag directMappedConfig 256).setIndex ∧
    (getSetAndTag directMappedConfig 0).tag ≠ (getSetAndTag directMappedConfig 256).tag ∧
    ∃ s2 comp2,
      intervalTicks directMappedConfig { hits := 0, misses := 0, accesses := 0 }
        (initialCache directMappedConfig) (runStart directMappedConfig .random)
        (alternating 0 256 2) = some (s2, comp2) ∧
      comp2.stats = { hits := 0, misses := 2 * 2, accesses := 2 * 2 } ∧
      comp2.memoryAccesses.length = 2 * 2 ∧
      (∀ r ∈ comp2.memoryAccesses,
        r.hit = false ∧ r.setIndex = (getSetAndTag directMappedConfig 0).setIndex ∧
          r.wayAccessed = 0) ∧
      comp2.memoryAccesses = (alternating 0 256 2).map (fun a =>
        { address := a, hit := false, setIndex := (getSetAndTag directMappedConfig 0).setIndex,
          wayAccessed := 0 }) ∧
      comp2.cacheState = s2 ∧
      (1 ≤ 2 → s2 = (initialCache directMappedConfig).set
        (getSetAndTag directMappedConfig 0).setIndex.toNat
        [{ valid := true, tag := (getSetAndTag directMappedConfig 256).tag, lastUsed := 1 }]) ∧
      ∀ (j : Nat) (a : Int), (alternating 0 256 2)[j]? = some a →
        ∃ sj compj,
          intervalTicks directMappedConfig { hits := 0, misses := 0, accesses := 0 }
            (initialCache directMappedConfig) (runStart directMappedConfig .random)
            ((alternating 0 256 2).take (j + 1)) = some (sj, compj) ∧
          compj.cacheState = sj ∧
          sj = (initialCache directMappedConfig).set
            (getSetAndTag directMappedConfig 0).setIndex.toNat
            [{ valid := true, tag := (getSetAndTag directMappedConfig a).tag, lastUsed := 1 }] :=
  ⟨by decide, rfl, by decide, by decide,
    direct_mapped_alternation_thrashes directMappedConfig .random 0 256 2 (by decide) rfl
      (by decide) (by decide)⟩

/-- Witness of C10: `accessMemory(0)` on the empty store of `twoWayConfig`. -/
theorem accessMemory_in_bounds_witness :
    ValidGeometry twoWayConfig ∧ WellShaped twoWayConfig (initialCache twoWayConfig) ∧
    TimestampsSafe (initialCache twoWayConfig) ∧
    ∃ o, accessMemory twoWayConfig (initialCache twoWayConfig) zeroStats 0 = some o ∧
      o.setIndex = (getSetAndTag twoWayConfig 0).setIndex ∧
      0 ≤ o.setIndex ∧ o.setIndex < (numSets twoWayConfig : Int) ∧
      0 ≤ o.wayAccessed ∧ o.wayAccessed < (effectiveAssociativity twoWayConfig : Int) ∧
      WellShaped twoWayConfig o.newCacheState :=
  ⟨by decide, by decide, by decide,
    accessMemory_in_bounds twoWayConfig (initialCache twoWayConfig) zeroStats 0
      (by decide) (by decide) (by decide)⟩

end CacheVisualizer
